import Mathlib

/-
Verification of the splink_udfs suffix-trie core: the QCK2 binary codec
(src/src/common/trie/suffix_trie.cpp, src/src/functions/trie/build_suffix_trie.cpp),
the trie builder (InsertReversed / MergeTrie), the LRU trie cache
(src/src/include/trie/suffix_trie_cache.hpp), the fuzzy address lookup
(src/src/common/trie/address_lookup.cpp), the diagnostic classifier
(src/src/functions/address/find_address_from_trie_classify.cpp) and the
end-token peeler (src/src/common/trie/peel_utils.cpp).

Modelling conventions:
 - Tokens are modelled as their UTF-8 byte sequences (`List Nat`); C++ string
   comparison (`==`, `<`, `compare`) is byte-wise and corresponds to
   equality / lexicographic order on these lists.
 - Machine integers are modelled as `Nat`; the explicit narrowing casts in the
   serializer (`static_cast<uint32_t>`, `& 0xFFFFFFFF`, `>> 32`) appear as
   `% 2^32` / division in the byte-writing functions.
 - `unordered_map<string, unique_ptr<TrieNode>>` children are modelled as an
   association list kept in strictly increasing key order (the canonical
   order-free representation of an unordered map; it is also the order in
   which SerializeNodeQCK2 emits children after its sort).
 - Fallible C++ code (`ParseQCK2` returning nullptr) is modelled with `Option`.
-/

namespace SplinkUdfs

/-- A token: the UTF-8 byte sequence of one normalized address word. -/
abbrev Token := List Nat

/-- Byte-wise lexicographic order on tokens: C++ `std::string::operator<`. -/
def ltTok : Token → Token → Bool
  | [], [] => false
  | [], _ :: _ => true
  | _ :: _, [] => false
  | a :: as, b :: bs => a < b || (a = b && ltTok as bs)

/-- Association-list lookup by key (first matching entry). -/
def alookup {κ α : Type} [DecidableEq κ] : List (κ × α) → κ → Option α
  | [], _ => none
  | (k, v) :: rest, key => if k = key then some v else alookup rest key

/-- Remove the (first) entry with the given key. -/
def removeKey {κ α : Type} [DecidableEq κ] : List (κ × α) → κ → List (κ × α)
  | [], _ => []
  | (k, v) :: rest, key => if k = key then rest else (k, v) :: removeKey rest key

/-- Insert-or-replace in a key-sorted association list, keeping sorted order.
This models `unordered_map::operator[]` (get-or-create) on the canonical
sorted representation of the map. -/
def sortedSetEntry {α : Type} : List (Token × α) → Token → α → List (Token × α)
  | [], k, v => [(k, v)]
  | (k', v') :: rest, k, v =>
    if k' = k then (k, v) :: rest
    else if ltTok k k' then (k, v) :: (k', v') :: rest
    else (k', v') :: sortedSetEntry rest k v

/-- Raw bytes of a serialized blob (each entry is one byte value). -/
abbrev Bytes := List Nat

/-- The little-endian digits written by `W32` for a `uint32_t`; the digit
formula performs the `static_cast<uint32_t>` narrowing itself
(`w32 v = w32 (v % 2^32)`). -/
def w32 (v : Nat) : Bytes :=
  [v % 256, v / 256 % 256, v / 65536 % 256, v / 16777216 % 256]

/-- `W64`: low `uint32_t` half then high half, as in the C++ writer. -/
def w64 (v : Nat) : Bytes :=
  w32 (v % 4294967296) ++ w32 (v / 4294967296 % 4294967296)

/-- `WStr`: `u32` byte length then the raw bytes of the token. -/
def wstr (s : Token) : Bytes :=
  w32 s.length ++ s

/-- Recombined value of the first four bytes, little-endian (used to state
what the magic-word check reads). -/
def le32 (b : Bytes) : Nat :=
  b.getD 0 0 + 256 * b.getD 1 0 + 65536 * b.getD 2 0 + 16777216 * b.getD 3 0

/-- `ReadU32`: succeeds exactly when at least four bytes remain; consumes
them and returns their little-endian value. -/
def readU32 : Bytes → Option (Nat × Bytes)
  | b0 :: b1 :: b2 :: b3 :: rest => some (b0 + 256 * b1 + 65536 * b2 + 16777216 * b3, rest)
  | _ => none

/-- `ReadBytes`: succeeds exactly when `n` bytes remain; consumes them. -/
def readBytes (n : Nat) (b : Bytes) : Option (Bytes × Bytes) :=
  if n ≤ b.length then some (b.take n, b.drop n) else none

/-- `ReadString`: a `u32` length followed by that many raw bytes. -/
def readString (b : Bytes) : Option (Token × Bytes) :=
  match readU32 b with
  | none => none
  | some (len, b1) =>
    match readBytes len b1 with
    | none => none
    | some (tok, b2) => some (tok, b2)

/-- The trie node built by the `build_suffix_trie` aggregate
(`struct TrieNode`): pass-through count, terminal count, identifier
(valid iff `term == 1`), and children. -/
inductive TrieNode where
  | mk (cnt term uprn : Nat) (kids : List (Token × TrieNode))

def TrieNode.cnt : TrieNode → Nat
  | .mk c _ _ _ => c

def TrieNode.term : TrieNode → Nat
  | .mk _ t _ _ => t

def TrieNode.uprn : TrieNode → Nat
  | .mk _ _ u _ => u

def TrieNode.kids : TrieNode → List (Token × TrieNode)
  | .mk _ _ _ ks => ks

/-- A freshly constructed `TrieNode` (all fields zero-initialized). -/
def emptyT : TrieNode := .mk 0 0 0 []

/-- The walking loop of `InsertReversed`, consuming the already-reversed
token list: every visited node (root included) gets `cnt+1`; the final node
gets `term+1` — `term` is a `uint32_t`, so the increment wraps modulo 2^32 —
and the identifier update keyed off the stored (wrapped) value
(`uprn := id` if the terminal becomes unique, else reset to 0). -/
def insGo (uprnVal : Nat) : TrieNode → List Token → TrieNode
  | .mk c t u kids, [] =>
      .mk (c + 1) ((t + 1) % 4294967296)
        (if (t + 1) % 4294967296 = 1 then uprnVal else 0) kids
  | .mk c t u kids, tok :: rest =>
      .mk (c + 1) t u
        (sortedSetEntry kids tok (insGo uprnVal ((alookup kids tok).getD emptyT) rest))

/-- `InsertReversed`: insert a token sequence right-to-left with the given
identifier. -/
def insertReversed (root : TrieNode) (toks : List Token) (uprnVal : Nat) : TrieNode :=
  insGo uprnVal root toks.reverse

mutual

/-- `MergeTrie`: sum `cnt`; sum `term` (`dst.term += src.term` on the
`uint32_t` field, so the sum wraps modulo 2^32); recompute `uprn` from the
stored wrapped terminal count (absent if 0 or more than 1; the destination
value if it was non-absent, else the source value, if exactly 1), then merge
children key-wise. -/
def mergeTrie : TrieNode → TrieNode → TrieNode
  | .mk dc dt du dkids, .mk sc st su skids =>
      .mk (dc + sc) ((dt + st) % 4294967296)
        (if (dt + st) % 4294967296 = 0 then 0
         else if (dt + st) % 4294967296 = 1 then (if du ≠ 0 then du else su)
         else 0)
        (mergeKidsInto dkids skids)

/-- The children loop of `MergeTrie`: for each source child, get-or-create the
destination child with that key and merge into it. -/
def mergeKidsInto : List (Token × TrieNode) → List (Token × TrieNode) → List (Token × TrieNode)
  | dk, [] => dk
  | dk, (k, c) :: rest =>
      mergeKidsInto (sortedSetEntry dk k (mergeTrie ((alookup dk k).getD emptyT) c)) rest

end

/-- The QCK2 magic word 0x324B4351 ('QCK2' little-endian). -/
def qck2Magic : Nat := 0x324B4351

mutual

/-- `SerializeNodeQCK2`: `u32 cnt`, `u32 term`, `u64 uprn`, `u32 child count`,
then each child (token, node) in sorted key order.  Children are already kept
in sorted order in this model, so the C++ sort-before-write is the
identity here. -/
def serializeNode : TrieNode → Bytes
  | .mk c t u kids =>
      w32 c ++ w32 t ++ w64 u ++ w32 kids.length ++ serializeKids kids

/-- The per-child write loop of `SerializeNodeQCK2`. -/
def serializeKids : List (Token × TrieNode) → Bytes
  | [] => []
  | (k, c) :: rest => wstr k ++ serializeNode c ++ serializeKids rest

end

/-- The blob written by `StateFinalize`: magic, flags byte 0x00, then the
serialized root node. -/
def encodeTrie (root : TrieNode) : Bytes :=
  w32 qck2Magic ++ [0] ++ serializeNode root

/-- A parsed trie node (`struct PNode`): children sorted lexicographically by
token, terminal metadata as in the builder. -/
inductive PNode where
  | mk (cnt term uprn : Nat) (kids : List (Token × PNode))

def PNode.cnt : PNode → Nat
  | .mk c _ _ _ => c

def PNode.term : PNode → Nat
  | .mk _ t _ _ => t

def PNode.uprn : PNode → Nat
  | .mk _ _ u _ => u

def PNode.kids : PNode → List (Token × PNode)
  | .mk _ _ _ ks => ks

mutual

/-- `ParseNodeQCK2`: read `cnt`, `term`, the two `u32` halves of `uprn`, the
child count, then that many children.  Every failure is a failed bounds check
inside `readU32` / `readString`.  The cursor strictly advances on every
successful read; the explicit length guard before the children loop records
this for termination and cannot fail on any input on which the reads
succeed. -/
def parseNode (b : Bytes) : Option (PNode × Bytes) :=
  match readU32 b with
  | none => none
  | some (cnt, b1) =>
    match readU32 b1 with
    | none => none
    | some (term, b2) =>
      match readU32 b2 with
      | none => none
      | some (lo, b3) =>
        match readU32 b3 with
        | none => none
        | some (hi, b4) =>
          match readU32 b4 with
          | none => none
          | some (nchild, b5) =>
            if h5 : b5.length < b.length then
              match parseKids nchild b5 with
              | none => none
              | some (kids, b6) => some (.mk cnt term (lo + 4294967296 * hi) kids, b6)
            else none
termination_by (b.length, 1)
decreasing_by
  exact Prod.Lex.left _ _ h5

/-- The children loop of `ParseNodeQCK2`: `count` children, each a
length-prefixed token followed by a recursively parsed node. -/
def parseKids : Nat → Bytes → Option (List (Token × PNode) × Bytes)
  | 0, b => some ([], b)
  | c + 1, b =>
    match readString b with
    | none => none
    | some (tok, b1) =>
      if h1 : b1.length < b.length then
        match parseNode b1 with
        | none => none
        | some (child, b2) =>
          if h2 : b2.length < b.length then
            match parseKids c b2 with
            | none => none
            | some (rest, b3) => some ((tok, child) :: rest, b3)
          else none
      else none
termination_by c b => (b.length, 0)
decreasing_by
  · exact Prod.Lex.left _ _ h1
  · exact Prod.Lex.left _ _ h2

end

/-- `ParseQCK2`: reject blobs shorter than the 5-byte header, check magic and
flags, parse the root node, and fail unless the blob is consumed exactly
(strict consumption).  Returns the root `PNode` (the arena is a C++ memory
management detail). -/
def parseQCK2 (b : Bytes) : Option PNode :=
  if b.length < 5 then none
  else
    match readU32 b with
    | none => none
    | some (magic, r1) =>
      if magic ≠ qck2Magic then none
      else
        match r1 with
        | [] => none
        | flags :: r2 =>
          if flags ≠ 0 then none
          else
            match parseNode r2 with
            | none => none
            | some (root, rest) => if rest ≠ [] then none else some root

mutual

/-- The parsed image of a builder node: the node with every field narrowed
exactly as the serializer writes it (`u32` counts, `u64` identifier). -/
def toP : TrieNode → PNode
  | .mk c t u kids =>
      .mk (c % 4294967296) (t % 4294967296) (u % 18446744073709551616) (toPKids kids)

/-- Pointwise parsed image of a children list. -/
def toPKids : List (Token × TrieNode) → List (Token × PNode)
  | [] => []
  | (k, c) :: rest => (k, toP c) :: toPKids rest

end

/-- Field observation of a builder trie along a token path from the root:
`(cnt, term, uprn)` of the node reached, or `none` if the path is absent. -/
def obs : TrieNode → List Token → Option (Nat × Nat × Nat)
  | .mk c t u _, [] => some (c, t, u)
  | .mk _ _ _ kids, tok :: rest =>
    match alookup kids tok with
    | none => none
    | some child => obs child rest

/-- Field observation of a parsed trie along a token path from the root. -/
def pObs : PNode → List Token → Option (Nat × Nat × Nat)
  | .mk c t u _, [] => some (c, t, u)
  | .mk _ _ _ kids, tok :: rest =>
    match alookup kids tok with
    | none => none
    | some child => pObs child rest

mutual

/-- Number of nodes of a parsed trie (used as loop fuel for the iterative
traversals below; every C++ loop modelled with this fuel visits each node at
most once). -/
def sizeP : PNode → Nat
  | .mk _ _ _ kids => 1 + sizePK kids

/-- Total node count of a children list. -/
def sizePK : List (Token × PNode) → Nat
  | [] => 0
  | (_, c) :: rest => sizeP c + sizePK rest

end

/-- The binary-search loop of `FindChild` over the sorted children array
(`lo`/`hi` interval halving, three-way compare); the interval shrinks every
iteration, so `kids.length + 1` rounds always suffice. -/
def findChildGo (kids : List (Token × PNode)) (tok : Token) : Nat → Nat → Nat → Option PNode
  | 0, _, _ => none
  | fuel + 1, lo, hi =>
    if lo < hi then
      let mid := (lo + hi) / 2
      let kv := kids.getD mid ([], .mk 0 0 0 [])
      if tok = kv.1 then some kv.2
      else if ltTok tok kv.1 then findChildGo kids tok fuel lo mid
      else findChildGo kids tok fuel (mid + 1) hi
    else none

/-- `FindChild`: binary search for a child by token. -/
def findChild (n : PNode) (tok : Token) : Option PNode :=
  findChildGo n.kids tok (n.kids.length + 1) 0 n.kids.length

/-- Children with nonzero `cnt`, in order (the candidates scanned by
`ResolveUniqueTerminal`). -/
def liveKids (kids : List (Token × PNode)) : List PNode :=
  kids.filterMap (fun kc => if kc.2.cnt = 0 then none else some kc.2)

/-- The descent loop of `ResolveUniqueTerminal`: stop at a `term == 1` node;
otherwise descend iff exactly one child has nonzero `cnt`; any other shape
resolves to nothing. -/
def resolveGo : Nat → PNode → Option PNode
  | 0, _ => none
  | fuel + 1, n =>
    if n.term = 1 then some n
    else
      match liveKids n.kids with
      | [child] => resolveGo fuel child
      | _ => none

/-- `ResolveUniqueTerminal`: deterministic descent from a node whose subtree
holds exactly one address to its sole terminal. -/
def resolveUniqueTerminal (n : PNode) : Option PNode :=
  resolveGo (sizeP n) n

/-- The tunable lookup parameters (`AddressMatchParams`), all `uint32_t`. -/
structure AddressMatchParams where
  skipMinLocalCount : Nat
  skipMaxInWalk : Nat
  minMatchedTokens : Nat
  entryMinLocalCount : Nat
  maxTrailingTokensIgnored : Nat
  maxTrieEntryDepth : Nat

/-- `TryAcceptCurrentNode`: reject below the matched-token minimum; accept a
`cnt == 1` node via unique-terminal resolution; otherwise accept a unique
terminal that is a leaf or has consumed every token. -/
def tryAccept (params : AddressMatchParams) (node : PNode)
    (startIndex consumed total : Nat) : Option Nat :=
  let matched := if startIndex < consumed then consumed - startIndex else 0
  if matched < params.minMatchedTokens then none
  else
    let viaUnique : Option Nat :=
      if node.cnt = 1 then
        match resolveUniqueTerminal node with
        | some terminal => if terminal.term = 1 then some terminal.uprn else none
        | none => none
      else none
    match viaUnique with
    | some u => some u
    | none =>
      if node.term = 1 ∧ (consumed = total ∨ node.kids.isEmpty) then some node.uprn
      else none

/-- The lookahead loop of `FindAddressExact`: scan distances `d, d+1, …` while
the budget lasts, returning the first distance whose lookahead token is a
child with `cnt` above `skip_min_local_count`. -/
def findSkipGo (params : AddressMatchParams) (node : PNode) (toks : List Token)
    (nn i : Nat) : Nat → Nat → Option (Nat × PNode)
  | _, 0 => none
  | d, remaining + 1 =>
    let la := toks.getD (nn - 1 - (i + d)) []
    match findChild node la with
    | some cand =>
      if params.skipMinLocalCount < cand.cnt then some (d, cand)
      else findSkipGo params node toks nn i (d + 1) remaining
    | none => findSkipGo params node toks nn i (d + 1) remaining

/-- The lookahead search starting at distance one, bounded by the
effective maximum lookahead. -/
def findSkip (params : AddressMatchParams) (node : PNode) (toks : List Token)
    (nn i maxLookahead : Nat) : Option (Nat × PNode) :=
  findSkipGo params node toks nn i 1 maxLookahead

/-- The inner walk loop of `FindAddressExact` for one (start, entry) attempt,
instrumented with the ghost list of skip events `(skipped tokens, landing
child cnt)` actually taken; the first component is exactly what the C++ loop
returns.  State: current node, next reversed-view index `i`, skip budget used,
and the anchored flag. -/
def walkGo (params : AddressMatchParams) (toks : List Token) (nn s : Nat) :
    Nat → PNode → Nat → Nat → Bool → Option Nat × List (Nat × Nat)
  | 0, _, _, _, _ => (none, [])
  | fuel + 1, node, i, skipsUsed, anchored =>
    if i < nn then
      let tok := toks.getD (nn - 1 - i) []
      match findChild node tok with
      | some child =>
        match tryAccept params child s (i + 1) nn with
        | some u => (some u, [])
        | none => walkGo params toks nn s fuel child (i + 1) skipsUsed true
      | none =>
        if skipsUsed < params.skipMaxInWalk then
          let remainingSkips := params.skipMaxInWalk - skipsUsed
          let maxLookahead :=
            if ¬anchored ∧ 0 < s then 0 else min remainingSkips (nn - 1 - i)
          match findSkip params node toks nn i maxLookahead with
          | some (d, cand) =>
            match tryAccept params cand s (i + d + 1) nn with
            | some u => (some u, [(d, cand.cnt)])
            | none =>
              let r := walkGo params toks nn s fuel cand (i + d + 1) (skipsUsed + d) true
              (r.1, (d, cand.cnt) :: r.2)
          | none => (none, [])
        else (none, [])
    else (none, [])

/-- One walk attempt of `FindAddressExact` from a seeded entry node with the
first `s` reversed-view tokens ignored: the pre-loop acceptance test on the
entry node itself, then the walk loop. -/
def walkAttempt (params : AddressMatchParams) (toks : List Token) (s : Nat)
    (entry : PNode) : Option Nat × List (Nat × Nat) :=
  let nn := toks.length
  match tryAccept params entry s s nn with
  | some u => (some u, [])
  | none => walkGo params toks nn s (nn + 1) entry s 0 false

/-- The depth-limited stack DFS of `FindAddressExact` that collects the
alternate entry nodes (children with `cnt` at or above
`entry_min_local_count`, up to `max_trie_entry_depth` edges deep), in the
same LIFO visit order as the C++ explicit stack. -/
def entriesGo (params : AddressMatchParams) :
    Nat → List (PNode × Nat) → List PNode → List PNode
  | 0, _, acc => acc
  | _ + 1, [], acc => acc
  | fuel + 1, (n, depth) :: stackRest, acc =>
    if depth = params.maxTrieEntryDepth then entriesGo params fuel stackRest acc
    else
      let newEntries :=
        n.kids.filterMap (fun kc =>
          if params.entryMinLocalCount ≤ kc.2.cnt then some kc.2 else none)
      let pushed := (n.kids.map (fun kc => (kc.2, depth + 1))).reverse ++ stackRest
      entriesGo params fuel pushed (acc ++ newEntries)

/-- The seeded entry nodes: the root first, then the DFS-collected nodes when
`max_trie_entry_depth > 0`. -/
def entryNodes (params : AddressMatchParams) (root : PNode) : List PNode :=
  if 0 < params.maxTrieEntryDepth then
    root :: entriesGo params (sizeP root + 1) [(root, 0)] []
  else [root]

/-- `FindAddressExact`: for each start offset `s` from `0` up to
`min(max_trailing_tokens_ignored, N-1)` and each entry node in order, run one
walk attempt; the first acceptance wins. -/
def findAddressExact (params : AddressMatchParams) (root : PNode)
    (toks : List Token) : Option Nat :=
  if toks.length = 0 then none
  else
    let entries := entryNodes params root
    let maxStart := min params.maxTrailingTokensIgnored (toks.length - 1)
    (List.range (maxStart + 1)).findSome? fun s =>
      entries.findSome? fun entry => (walkAttempt params toks s entry).1

/-- The four classification statuses of the diagnostic entry point. -/
inductive CStatus where
  | exact
  | ambiguous
  | insufficient
  | noPath
deriving DecidableEq

/-- The non-prefix walk loop of `ClassifyExec`: consume tokens right-to-left;
on a hit advance and count it; on a miss burn one skip (consume the token
without moving) while the budget lasts, else stop. -/
def classifyGo (node : PNode) (last : Option PNode) (matched skipsLeft : Nat) :
    List Token → Nat × Option PNode
  | [] => (matched, last)
  | tok :: rest =>
    match findChild node tok with
    | some next => classifyGo next (some next) (matched + 1) skipsLeft rest
    | none =>
      if 0 < skipsLeft then classifyGo node last matched (skipsLeft - 1) rest
      else (matched, last)

/-- The walk of the non-prefix branch of `ClassifyExec` (matched length and
last node reached). -/
def classifyWalkNP (root : PNode) (toks : List Token) (maxSkips : Nat) :
    Nat × Option PNode :=
  classifyGo root none 0 maxSkips toks.reverse

/-- The record produced by `find_address_from_trie_classify`
(status, uprn, matched_len, consumed_all_tokens, node_cnt, term). -/
structure ClassifyResult where
  status : CStatus
  uprn : Option Nat
  matchedLen : Nat
  consumedAll : Bool
  nodeCnt : Nat
  nodeTerm : Nat
deriving DecidableEq

/-- The boundary clamp of the `max_skips` argument of `ClassifyExec`
(negative to 0, more than one to 1). -/
def clampSkips (v : Int) : Nat :=
  if v < 0 then 0 else if 1 < v then 1 else v.toNat

/-- The non-prefix branch of `ClassifyExec`: run the walk, then classify —
on full consumption: `EXACT` for a unique terminal with a nonzero id,
`INSUFFICIENT` for a non-terminal, else `AMBIGUOUS`; without full
consumption: `NO_PATH` on zero progress, `AMBIGUOUS` when the last node has
`cnt > 1`, else `NO_PATH`. -/
def classifyNP (root : PNode) (toks : List Token) (maxSkips : Nat) : ClassifyResult :=
  if toks.length = 0 then ⟨.noPath, none, 0, false, 0, 0⟩
  else
    let w := classifyWalkNP root toks maxSkips
    let m := w.1
    let cntTerm : Nat × Nat :=
      match w.2 with
      | some l => (l.cnt, l.term)
      | none => (0, 0)
    let statusUprn : CStatus × Option Nat :=
      if m = toks.length then
        match w.2 with
        | some l =>
          if l.term = 1 ∧ l.uprn ≠ 0 then (.exact, some l.uprn)
          else if l.term = 0 then (.insufficient, none)
          else (.ambiguous, none)
        | none => (.ambiguous, none)
      else
        if m = 0 then (.noPath, none)
        else
          match w.2 with
          | some l => if 1 < l.cnt then (.ambiguous, none) else (.noPath, none)
          | none => (.noPath, none)
    ⟨statusUprn.1, statusUprn.2, m, m == toks.length, cntTerm.1, cntTerm.2⟩

/-- Modelled from the spec: `CountTail` is declared in
src/src/include/trie/suffix_trie.hpp ("Walk a reversed tail (rightmost token
first). Returns 0 if path missing.") and called by the peeler, but its
definition is not among the provided sources.  Following §4.4 of the spec, it
walks the reversed tail from the root and yields the `count` of the node
reached, 0 once the path breaks. -/
def countTail : PNode → List Token → Nat
  | n, [] => n.cnt
  | n, tok :: rest =>
    match findChild n tok with
    | none => 0
    | some child => countTail child rest

/-- The inner `k`-loop of one peeling iteration: try `k = tryMaxK` down to 1;
drop the trailing `k` tokens as soon as the anchor token alone has a strictly
greater suffix count than the anchor plus those `k` tokens. -/
def peelFindK (root : PNode) (toks : List Token) : Nat → Option Nat
  | 0 => none
  | kk + 1 =>
    let n := toks.length
    let k := kk + 1
    let anchor := toks.getD (n - k - 1) []
    let cAnchor := countTail root [anchor]
    let tailRev := (toks.drop (n - k)).reverse ++ [anchor]
    let cCombo := countTail root tailRev
    if cCombo < cAnchor then some k else peelFindK root toks kk

/-- The outer steps-loop of `PeelEndTokensInPlace`: stop early once fewer than
two tokens remain or an iteration drops nothing (fixed point). -/
def peelGo (root : PNode) (maxK : Nat) : Nat → List Token → List Token
  | 0, toks => toks
  | steps + 1, toks =>
    if toks.length < 2 then toks
    else
      let n := toks.length
      let tryMaxK := min maxK (n - 1)
      match peelFindK root toks tryMaxK with
      | some k => peelGo root maxK steps (toks.take (n - k))
      | none => toks

/-- `PeelEndTokensInPlace`: clamp `steps` to be non-negative and `max_k` to at
least 1; no-op without a root, with fewer than two tokens, or with zero
steps. -/
def peelEndTokens (toks : List Token) (root : Option PNode) (steps maxK : Int) :
    List Token :=
  let stepsN := if steps < 0 then 0 else steps.toNat
  let maxKN := if maxK < 1 then 1 else maxK.toNat
  match root with
  | none => toks
  | some r =>
    if toks.length < 2 ∨ stepsN = 0 then toks
    else peelGo r maxKN stepsN toks

/-- `TrieCache::MAX_CACHE_SIZE`. -/
def cacheCapacity : Nat := 64

/-- The cache state: the LRU list, most recently used first (the hash map of
the C++ class is an index into this list and carries no extra state). -/
abbrev CacheState := List (Nat × Nat)

/-- `TrieCache::Get`: on a hit, splice the entry to the front (most recently
used) and return its value. -/
def cacheGet (s : CacheState) (k : Nat) : Option Nat × CacheState :=
  match alookup s k with
  | none => (none, s)
  | some v => (some v, (k, v) :: removeKey s k)

/-- `TrieCache::Put`: update-and-promote an existing key; otherwise push the
new entry to the front and, past capacity, evict the back (least recently
used) entry. -/
def cachePut (s : CacheState) (k v : Nat) : CacheState :=
  match alookup s k with
  | some _ => (k, v) :: removeKey s k
  | none =>
    let s' := (k, v) :: s
    if cacheCapacity < s'.length then s'.dropLast else s'

/-- Fold a sequence of `Put` calls into a cache state. -/
def cachePutAll (s : CacheState) (ps : List (Nat × Nat)) : CacheState :=
  ps.foldl (fun acc p => cachePut acc p.1 p.2) s

/-- Build a trie from a list of (token-sequence, identifier) pairs by folding
`InsertReversed` over a fresh root, exactly as the aggregate update does. -/
def buildTrie (ps : List (List Token × Nat)) : TrieNode :=
  ps.foldl (fun t p => insertReversed t p.1 p.2) emptyT

/-- Structural well-formedness every builder trie enjoys: the terminal count
fits `uint32_t` at every node (the field's C++ type; every write site wraps
modulo 2^32), and children are strictly sorted by token at every node (the
canonical image of the `unordered_map` children; strict sortedness also
gives key uniqueness). -/
inductive NodesWF : TrieNode → Prop where
  | mk (cnt term uprn : Nat) (kids : List (Token × TrieNode)) :
      term < 4294967296 →
      kids.Pairwise (fun p q => ltTok p.1 q.1) →
      (∀ p ∈ kids, NodesWF p.2) →
      NodesWF (.mk cnt term uprn kids)

/-- Every field of every node fits the width the serializer writes it at:
counts and child counts in `uint32_t`, identifiers in `uint64_t`, token
lengths in `uint32_t`. -/
inductive BoundedT : TrieNode → Prop where
  | mk (cnt term uprn : Nat) (kids : List (Token × TrieNode)) :
      cnt < 4294967296 → term < 4294967296 →
      uprn < 18446744073709551616 →
      kids.length < 4294967296 →
      (∀ p ∈ kids, p.1.length < 4294967296) →
      (∀ p ∈ kids, BoundedT p.2) →
      BoundedT (.mk cnt term uprn kids)

/-- The builder tries: a fresh state, an insertion of a non-empty token list
(the aggregate update skips empty lists), or a merge of two builder tries. -/
inductive Built : TrieNode → Prop where
  | empty : Built emptyT
  | insert (t : TrieNode) (toks : List Token) (uprnVal : Nat) :
      Built t → toks ≠ [] → Built (insertReversed t toks uprnVal)
  | merge (a b : TrieNode) : Built a → Built b → Built (mergeTrie a b)

/-- Specification-side failure condition for QCK2 decoding, following the
spec's words: the decoder fails exactly on a header read past the buffer end,
a wrong magic word, a wrong flags byte, a truncated node body (the node
parser's only failure mode is a bounds check), or trailing bytes after the
root (strict consumption). -/
def parseFailsSpec (b : Bytes) : Prop :=
  b.length < 4 ∨
  (4 ≤ b.length ∧ le32 b ≠ qck2Magic) ∨
  b.length = 4 ∨
  (5 ≤ b.length ∧ b.getD 4 0 ≠ 0) ∨
  (5 ≤ b.length ∧ parseNode (b.drop 5) = none) ∨
  (5 ≤ b.length ∧ ∃ t rest, parseNode (b.drop 5) = some (t, rest) ∧ rest ≠ [])

/-- Observation of `count` and `terminal_count` only, along a token path
(the two fields the merge algebra is commutative/associative over). -/
def obsCT : TrieNode → List Token → Option (Nat × Nat)
  | .mk c t _ _, [] => some (c, t)
  | .mk _ _ _ kids, tok :: rest =>
    match alookup kids tok with
    | none => none
    | some child => obsCT child rest

/-- Pointwise combination of two per-path `(count, terminal_count)`
observations: absent paths contribute nothing, shared paths add up —
the terminal counts with the `uint32_t` wrap the merge performs. -/
def combineCT : Option (Nat × Nat) → Option (Nat × Nat) → Option (Nat × Nat)
  | none, y => y
  | some x, none => some x
  | some x, some y => some (x.1 + y.1, (x.2 + y.2) % 4294967296)

/-- Demonstration parsed trie holding the single address "A B" with
identifier 9 (path root → "B" → "A", reversed-suffix orientation). -/
def demoP : PNode :=
  .mk 1 0 0 [([66], .mk 1 0 0 [([65], .mk 1 1 9 [])])]

/-- Demonstration parameters: minimum two matched tokens, no in-walk skips,
one trailing token ignorable, no alternate entry nodes. -/
def demoParams : AddressMatchParams :=
  ⟨10, 0, 2, 10, 1, 0⟩

/-- Demonstration parameters with a skip budget of two tokens. -/
def demoParamsSkip : AddressMatchParams :=
  ⟨0, 2, 2, 10, 1, 0⟩

/-- Demonstration parsed trie for the peeler: token "A" is well supported
(count 4) while the tail combination "… B A" is rare (count 1). -/
def peelP : PNode :=
  .mk 5 0 0 [([65], .mk 4 0 0 []), ([66], .mk 1 0 0 [([65], .mk 1 0 0 [])])]

/-- Demonstration parsed trie with an ambiguous terminal ("B" inserted
twice): `term = 2`, absent identifier. -/
def ambP : PNode :=
  .mk 2 0 0 [([66], .mk 2 2 0 [])]

/-! Helper lemmas on association lists and the token order. -/

theorem alookup_eq_none_iff {κ α : Type} [DecidableEq κ] (l : List (κ × α)) (k : κ) :
    alookup l k = none ↔ k ∉ l.map Prod.fst := by
  induction l with
  | nil => simp [alookup]
  | cons p rest ih =>
    obtain ⟨k', v'⟩ := p
    by_cases h : k' = k
    · simp [alookup, h]
    · simp only [alookup, if_neg h, ih, List.map_cons, List.mem_cons]
      constructor
      · intro hn hc
        rcases hc with he | hm
        · exact h he.symm
        · exact hn hm
      · intro hn hm
        exact hn (Or.inr hm)

theorem alookup_isSome_of_mem {κ α : Type} [DecidableEq κ] (l : List (κ × α)) (k : κ)
    (h : k ∈ l.map Prod.fst) : ∃ v, alookup l k = some v := by
  cases hv : alookup l k with
  | some v => exact ⟨v, rfl⟩
  | none => exact absurd ((alookup_eq_none_iff l k).mp hv) (by simp [h])

theorem length_removeKey_of_lookup {κ α : Type} [DecidableEq κ]
    (l : List (κ × α)) (k : κ) (v : α) (h : alookup l k = some v) :
    (removeKey l k).length + 1 = l.length := by
  induction l with
  | nil => simp [alookup] at h
  | cons p rest ih =>
    obtain ⟨k', v'⟩ := p
    by_cases hk : k' = k
    · simp [removeKey, hk]
    · simp only [alookup, if_neg hk] at h
      simp [removeKey, hk, ih h]

theorem ltTok_irrefl (k : Token) : ltTok k k = false := by
  induction k with
  | nil => rfl
  | cons a as ih => simp [ltTok, ih]

theorem ltTok_trans {a b c : Token} (hab : ltTok a b = true) (hbc : ltTok b c = true) :
    ltTok a c = true := by
  induction a generalizing b c with
  | nil =>
    cases b with
    | nil => simp [ltTok] at hab
    | cons y ys =>
      cases c with
      | nil => simp [ltTok] at hbc
      | cons z zs => simp [ltTok]
  | cons x xs ih =>
    cases b with
    | nil => simp [ltTok] at hab
    | cons y ys =>
      cases c with
      | nil => simp [ltTok] at hbc
      | cons z zs =>
        simp only [ltTok, Bool.or_eq_true, Bool.and_eq_true, decide_eq_true_eq] at hab hbc ⊢
        rcases hab with hxy | ⟨hxy, hxs⟩
        · rcases hbc with hyz | ⟨hyz, hys⟩
          · exact Or.inl (hxy.trans hyz)
          · exact Or.inl (hyz ▸ hxy)
        · rcases hbc with hyz | ⟨hyz, hys⟩
          · exact Or.inl (hxy ▸ hyz)
          · exact Or.inr ⟨hxy.trans hyz, ih hxs hys⟩

theorem ltTok_of_ne_of_not_lt {a b : Token} (hne : a ≠ b) (hnlt : ltTok a b = false) :
    ltTok b a = true := by
  induction a generalizing b with
  | nil =>
    cases b with
    | nil => exact absurd rfl hne
    | cons y ys => simp [ltTok] at hnlt
  | cons x xs ih =>
    cases b with
    | nil => simp [ltTok]
    | cons y ys =>
      by_cases hxy : x = y
      · subst hxy
        have h1 : ltTok xs ys = false := by simpa [ltTok] using hnlt
        have h2 : xs ≠ ys := fun h => hne (by rw [h])
        simp [ltTok, ih h2 h1]
      · have h1 : ¬ x < y := by
          intro hc
          simp [ltTok, hc] at hnlt
        have h2 : y < x := Nat.lt_of_le_of_ne (Nat.le_of_not_lt h1) (fun h => hxy h.symm)
        simp [ltTok, h2]

theorem mem_sortedSetEntry {α : Type} (l : List (Token × α)) (k : Token) (v : α)
    (q : Token × α) (hq : q ∈ sortedSetEntry l k v) : q ∈ l ∨ q = (k, v) := by
  induction l with
  | nil => simp [sortedSetEntry] at hq; exact Or.inr hq
  | cons p rest ih =>
    obtain ⟨k', v'⟩ := p
    by_cases h1 : k' = k
    · simp only [sortedSetEntry, if_pos h1] at hq
      rcases List.mem_cons.mp hq with h | h
      · exact Or.inr h
      · exact Or.inl (List.mem_cons_of_mem _ h)
    · by_cases h2 : ltTok k k'
      · simp only [sortedSetEntry, if_neg h1, if_pos h2] at hq
        rcases List.mem_cons.mp hq with h | h
        · exact Or.inr h
        · exact Or.inl h
      · simp only [sortedSetEntry, if_neg h1, if_neg h2] at hq
        rcases List.mem_cons.mp hq with h | h
        · exact Or.inl (h ▸ List.mem_cons_self _ _)
        · rcases ih h with h' | h'
          · exact Or.inl (List.mem_cons_of_mem _ h')
          · exact Or.inr h'

theorem sortedSetEntry_pairwise {α : Type} (l : List (Token × α)) (k : Token) (v : α)
    (hl : l.Pairwise fun p q => ltTok p.1 q.1) :
    (sortedSetEntry l k v).Pairwise fun p q => ltTok p.1 q.1 := by
  induction l with
  | nil => simp [sortedSetEntry]
  | cons p rest ih =>
    obtain ⟨k', v'⟩ := p
    rw [List.pairwise_cons] at hl
    obtain ⟨hhead, hrest⟩ := hl
    by_cases h1 : k' = k
    · subst h1
      simp only [sortedSetEntry, if_pos rfl]
      exact List.pairwise_cons.mpr ⟨hhead, hrest⟩
    · by_cases h2 : ltTok k k'
      · simp only [sortedSetEntry, if_neg h1, if_pos h2]
        refine List.pairwise_cons.mpr ⟨?_, List.pairwise_cons.mpr ⟨hhead, hrest⟩⟩
        intro q hq
        rcases List.mem_cons.mp hq with h | h
        · rw [h]; exact h2
        · exact ltTok_trans h2 (hhead q h)
      · simp only [sortedSetEntry, if_neg h1, if_neg h2]
        refine List.pairwise_cons.mpr ⟨?_, ih hrest⟩
        intro q hq
        rcases mem_sortedSetEntry rest k v q hq with h | h
        · exact hhead q h
        · rw [h]
          exact ltTok_of_ne_of_not_lt (fun he => h1 he.symm)
            (Bool.eq_false_iff.mpr (fun hc => h2 hc))

theorem alookup_sortedSetEntry_self {α : Type} (l : List (Token × α)) (k : Token) (v : α) :
    alookup (sortedSetEntry l k v) k = some v := by
  induction l with
  | nil => simp [sortedSetEntry, alookup]
  | cons p rest ih =>
    obtain ⟨k', v'⟩ := p
    by_cases h1 : k' = k
    · simp [sortedSetEntry, h1, alookup]
    · by_cases h2 : ltTok k k'
      · simp [sortedSetEntry, h1, h2, alookup]
      · simp [sortedSetEntry, h1, h2, alookup, ih]

theorem alookup_sortedSetEntry_ne {α : Type} (l : List (Token × α)) (k j : Token) (v : α)
    (hne : j ≠ k) : alookup (sortedSetEntry l k v) j = alookup l j := by
  have hkj : ¬ k = j := fun h => hne h.symm
  induction l with
  | nil => simp [sortedSetEntry, alookup, hkj]
  | cons p rest ih =>
    obtain ⟨k', v'⟩ := p
    by_cases h1 : k' = k
    · subst h1
      simp [sortedSetEntry, alookup, hkj]
    · by_cases h2 : ltTok k k'
      · simp [sortedSetEntry, h1, h2, alookup, hkj]
      · simp [sortedSetEntry, h1, h2, alookup, ih]

/-! Claim C5: node-level effect of `MergeTrie` on `cnt`, `term`, `uprn`.
`terminal_count` is a `uint32_t`, so `dst.term += src.term` wraps modulo
2^32: the merged terminal count is the wrapped sum, not the mathematical
sum, and the identifier recomputation keys off the wrapped value — refuting
the claim at operands summing to 2^32 or more. -/

/-- C5 (amended).  After `MergeTrie` combines two nodes, the merged node's
count is the sum of the operands' counts, its terminal count is the
operands' terminal counts summed with the `uint32_t` wrap (modulo 2^32), and
its identifier — recomputed from that wrapped sum — is absent when the
wrapped sum is 0 or exceeds 1, is the non-absent operand's identifier when
the wrapped sum is exactly 1, and is never a value neither operand
carried. -/
theorem mergeTrie_node_fields : ∀ a b : TrieNode,
    (mergeTrie a b).cnt = a.cnt + b.cnt ∧
    (mergeTrie a b).term = (a.term + b.term) % 4294967296 ∧
    ((a.term + b.term) % 4294967296 = 0 → (mergeTrie a b).uprn = 0) ∧
    (1 < (a.term + b.term) % 4294967296 → (mergeTrie a b).uprn = 0) ∧
    ((a.term + b.term) % 4294967296 = 1 → a.uprn ≠ 0 → (mergeTrie a b).uprn = a.uprn) ∧
    ((a.term + b.term) % 4294967296 = 1 → a.uprn = 0 → (mergeTrie a b).uprn = b.uprn) ∧
    ((mergeTrie a b).uprn = 0 ∨ (mergeTrie a b).uprn = a.uprn ∨
      (mergeTrie a b).uprn = b.uprn) := by
  intro a b
  obtain ⟨dc, dt, du, dkids⟩ := a
  obtain ⟨sc, st, su, skids⟩ := b
  simp only [mergeTrie, TrieNode.cnt, TrieNode.term, TrieNode.uprn]
  refine ⟨trivial, trivial, ?_, ?_, ?_, ?_, ?_⟩
  · intro h; simp [h]
  · intro h
    rw [if_neg (by omega), if_neg (by omega)]
  · intro h hu
    simp [h, hu]
  · intro h hu
    simp [h, hu]
  · split
    · exact Or.inl rfl
    · split
      · split
        · exact Or.inr (Or.inl rfl)
        · exact Or.inr (Or.inr rfl)
      · exact Or.inl rfl

/-- Witness for the amended C5 at concrete nodes: merging a unique terminal
(id 7) with a non-terminal keeps the id; counts add and terminal counts add
modulo 2^32. -/
theorem mergeTrie_node_fields_witness :
    (mergeTrie (.mk 1 1 7 []) (.mk 2 0 0 [])).cnt = 3 ∧
    (mergeTrie (.mk 1 1 7 []) (.mk 2 0 0 [])).term = 1 ∧
    (mergeTrie (.mk 1 1 7 []) (.mk 2 0 0 [])).uprn = 7 := by
  have h := mergeTrie_node_fields (.mk 1 1 7 []) (.mk 2 0 0 [])
  exact ⟨h.1, h.2.1, h.2.2.2.2.1 (by decide) (by decide)⟩

/-! Claim C7: the LRU behaviour of `TrieCache`. -/

theorem take_cons_pos {α : Type} (a : α) (l : List α) (n : Nat) (h : 0 < n) :
    (a :: l).take n = a :: l.take (n - 1) := by
  cases n with
  | zero => omega
  | succ m => simp

theorem alookup_append {κ α : Type} [DecidableEq κ] (l1 l2 : List (κ × α)) (k : κ) :
    alookup (l1 ++ l2) k =
      match alookup l1 k with
      | some v => some v
      | none => alookup l2 k := by
  induction l1 with
  | nil => simp [alookup]
  | cons p rest ih =>
    obtain ⟨k', v'⟩ := p
    by_cases h : k' = k
    · simp [alookup, h]
    · simp [alookup, h, ih]

theorem removeKey_append_of_none {κ α : Type} [DecidableEq κ] (l1 l2 : List (κ × α)) (k : κ)
    (h : alookup l1 k = none) : removeKey (l1 ++ l2) k = l1 ++ removeKey l2 k := by
  induction l1 with
  | nil => simp
  | cons p rest ih =>
    obtain ⟨k', v'⟩ := p
    by_cases hk : k' = k
    · simp [alookup, hk] at h
    · simp only [alookup, if_neg hk] at h
      simp [removeKey, hk, ih h]

theorem cachePutAll_fresh : ∀ ps : CacheState, (ps.map Prod.fst).Nodup →
    cachePutAll [] ps = ps.reverse.take cacheCapacity := by
  intro ps
  induction ps using List.reverseRecOn with
  | nil => intro _; rfl
  | append_singleton qs p ih =>
    intro hnd
    have hnd' := hnd
    rw [List.map_append, List.nodup_append] at hnd'
    have hqs : (qs.map Prod.fst).Nodup := hnd'.1
    have hfresh : p.1 ∉ qs.map Prod.fst := by
      intro hmem
      exact hnd'.2.2 hmem (by simp)
    have hfold : cachePutAll [] (qs ++ [p]) = cachePut (cachePutAll [] qs) p.1 p.2 := by
      simp [cachePutAll, List.foldl_append]
    rw [hfold, ih hqs]
    have hnotinrev : alookup qs.reverse p.1 = none := by
      rw [alookup_eq_none_iff]
      intro hmem
      exact hfresh (by simpa using hmem)
    have hnotin : alookup (qs.reverse.take cacheCapacity) p.1 = none := by
      rw [alookup_eq_none_iff]
      intro hmem
      apply hfresh
      have h1 : p.1 ∈ (qs.reverse.map Prod.fst).take cacheCapacity := by
        rwa [List.map_take] at hmem
      have h2 : p.1 ∈ qs.reverse.map Prod.fst := List.take_subset _ _ h1
      simpa using h2
    rw [List.reverse_append, List.reverse_singleton, List.singleton_append]
    by_cases hlen : qs.length < cacheCapacity
    · have htake : qs.reverse.take cacheCapacity = qs.reverse := by
        apply List.take_of_length_le
        simp
        omega
      simp only [cachePut, htake, hnotinrev]
      rw [if_neg (by simp; omega)]
      rw [List.take_of_length_le (by simp; omega)]
    · have hlen' : cacheCapacity ≤ qs.length := Nat.le_of_not_lt hlen
      have hlt : (qs.reverse.take cacheCapacity).length = cacheCapacity := by
        simp [List.length_take]
        omega
      simp only [cachePut, hnotin]
      rw [if_pos (by simp only [List.length_cons, hlt]; exact Nat.lt_succ_self _)]
      rw [List.dropLast_eq_take, List.length_cons, hlt, Nat.add_sub_cancel]
      rw [take_cons_pos _ _ _ (by decide), take_cons_pos _ _ _ (by decide),
        List.take_take, Nat.min_eq_left (by omega)]

theorem cachePut_len (s : CacheState) (k v : Nat) (h : s.length ≤ cacheCapacity) :
    (cachePut s k v).length ≤ cacheCapacity := by
  cases hl : alookup s k with
  | some w =>
    simp only [cachePut, hl]
    have := length_removeKey_of_lookup s k w hl
    simp only [List.length_cons]
    omega
  | none =>
    simp only [cachePut, hl, List.length_cons]
    by_cases hc : cacheCapacity < s.length + 1
    · rw [if_pos hc, List.length_dropLast, List.length_cons]
      omega
    · rw [if_neg hc, List.length_cons]
      omega

theorem cacheGet_hit (s : CacheState) (k v : Nat) (h : alookup s k = some v) :
    (cacheGet s k).1 = some v ∧ (cacheGet s k).2.head? = some (k, v) := by
  simp [cacheGet, h]

theorem cachePut_full_evicts (s : CacheState) (k v : Nat)
    (hlen : s.length = cacheCapacity) (hmiss : alookup s k = none) :
    cachePut s k v = (k, v) :: s.dropLast := by
  simp only [cachePut, hmiss]
  rw [if_pos (by simp only [List.length_cons, hlen]; exact Nat.lt_succ_self _)]
  rw [List.dropLast_cons_of_ne_nil]
  intro hc
  rw [hc] at hlen
  simp [cacheCapacity] at hlen

theorem cache_scenarioA (p : Nat × Nat) (rest : CacheState)
    (hlen : rest.length = cacheCapacity)
    (hnd : ((p :: rest).map Prod.fst).Nodup) :
    alookup (cachePutAll [] (p :: rest)) p.1 = none := by
  rw [cachePutAll_fresh _ hnd, alookup_eq_none_iff]
  intro hmem
  have hp : p.1 ∉ rest.map Prod.fst := by
    rw [List.map_cons, List.nodup_cons] at hnd
    exact hnd.1
  apply hp
  rw [List.reverse_cons] at hmem
  have hre : (rest.reverse ++ [p]).take cacheCapacity = rest.reverse := by
    have : cacheCapacity = rest.reverse.length := by simp [hlen]
    rw [this, List.take_left]
  rw [hre] at hmem
  simpa using hmem

theorem cache_scenarioB (pk pv qk qv : Nat) (rest : CacheState) (knew vnew : Nat)
    (hlen : rest.length + 2 = cacheCapacity)
    (hnd : (((pk, pv) :: (qk, qv) :: rest).map Prod.fst).Nodup)
    (hknew : knew ∉ ((pk, pv) :: (qk, qv) :: rest).map Prod.fst) :
    alookup
      (cachePut ((cacheGet (cachePutAll [] ((pk, pv) :: (qk, qv) :: rest)) pk).2) knew vnew)
      pk = some pv ∧
    alookup
      (cachePut ((cacheGet (cachePutAll [] ((pk, pv) :: (qk, qv) :: rest)) pk).2) knew vnew)
      qk = none := by
  simp only [List.map_cons, List.nodup_cons, List.mem_cons] at hnd hknew
  have hpq : pk ≠ qk := fun h => hnd.1 (Or.inl h)
  have hpr : pk ∉ rest.map Prod.fst := fun h => hnd.1 (Or.inr h)
  have hqr : qk ∉ rest.map Prod.fst := hnd.2.1
  have hkp : knew ≠ pk := fun h => hknew (Or.inl h)
  have hkq : knew ≠ qk := fun h => hknew (Or.inr (Or.inl h))
  have hkr : knew ∉ rest.map Prod.fst := fun h => hknew (Or.inr (Or.inr h))
  have hqp : ¬ (qk = pk) := fun h => hpq h.symm
  have hqknew : ¬ (qk = knew) := fun h => hkq h.symm
  have hpknew : ¬ (pk = knew) := fun h => hkp h.symm
  have hnkp : ¬ (knew = pk) := hkp
  have hnpq : ¬ (pk = qk) := hpq
  have hrevkeys : ∀ a : Nat, a ∉ rest.map Prod.fst → alookup rest.reverse a = none := by
    intro a ha
    rw [alookup_eq_none_iff]
    intro hmem
    exact ha (by simpa using hmem)
  -- the state after the 64 insertions
  have h1 : cachePutAll [] ((pk, pv) :: (qk, qv) :: rest)
      = rest.reverse ++ [(qk, qv), (pk, pv)] := by
    rw [cachePutAll_fresh _ (by
      simp only [List.map_cons, List.nodup_cons, List.mem_cons]
      exact ⟨hnd.1, hnd.2.1, hnd.2.2⟩)]
    rw [List.reverse_cons, List.reverse_cons, List.append_assoc]
    apply List.take_of_length_le
    simp
    omega
  -- the get promotes pk to the front
  have hlook1 : alookup (rest.reverse ++ [(qk, qv), (pk, pv)]) pk = some pv := by
    rw [alookup_append, hrevkeys pk hpr]
    simp [alookup, hqp]
  have h2 : (cacheGet (cachePutAll [] ((pk, pv) :: (qk, qv) :: rest)) pk).2
      = (pk, pv) :: (rest.reverse ++ [(qk, qv)]) := by
    rw [h1]
    simp only [cacheGet, hlook1]
    rw [removeKey_append_of_none _ _ _ (hrevkeys pk hpr)]
    simp [removeKey, hqp]
  rw [h2]
  -- the put of the fresh key evicts the back entry (qk, qv)
  have hmiss : alookup ((pk, pv) :: (rest.reverse ++ [(qk, qv)])) knew = none := by
    simp only [alookup, if_neg hpknew]
    rw [alookup_append, hrevkeys knew hkr]
    simp [alookup, hqknew]
  have h3 : cachePut ((pk, pv) :: (rest.reverse ++ [(qk, qv)])) knew vnew
      = (knew, vnew) :: (pk, pv) :: rest.reverse := by
    simp only [cachePut, hmiss]
    rw [if_pos (by simp; omega)]
    have hshape : ((knew, vnew) :: (pk, pv) :: (rest.reverse ++ [(qk, qv)]))
        = ((knew, vnew) :: (pk, pv) :: rest.reverse) ++ [(qk, qv)] := by
      simp
    rw [hshape, List.dropLast_concat]
  rw [h3]
  constructor
  · simp [alookup, hnkp]
  · simp only [alookup, if_neg hkq, if_neg hnpq]
    exact hrevkeys qk hqr

/-- C7.  The `TrieCache` holds at most 64 entries with least-recently-used
eviction: a `Put` never grows the cache past capacity; a `Get` hit returns the
stored value and promotes its entry to most-recently-used (the front of the
LRU list); a `Put` of a new key into a full cache evicts the back
(least-recently-used) entry; after `Put`s of `capacity+1` distinct keys with
no re-access the first-inserted key is absent; and a `Get` of the first key
right before the eviction-triggering `Put` protects it, the second-inserted
key being evicted instead. -/
theorem trieCache_lru_behaviour :
    (∀ (s : CacheState) (k v : Nat), s.length ≤ cacheCapacity →
      (cachePut s k v).length ≤ cacheCapacity) ∧
    (∀ (s : CacheState) (k v : Nat), alookup s k = some v →
      (cacheGet s k).1 = some v ∧ (cacheGet s k).2.head? = some (k, v)) ∧
    (∀ (s : CacheState) (k v : Nat), s.length = cacheCapacity → alookup s k = none →
      cachePut s k v = (k, v) :: s.dropLast) ∧
    (∀ (p : Nat × Nat) (rest : CacheState), rest.length = cacheCapacity →
      ((p :: rest).map Prod.fst).Nodup →
      alookup (cachePutAll [] (p :: rest)) p.1 = none) ∧
    (∀ (pk pv qk qv : Nat) (rest : CacheState) (knew vnew : Nat),
      rest.length + 2 = cacheCapacity →
      (((pk, pv) :: (qk, qv) :: rest).map Prod.fst).Nodup →
      knew ∉ ((pk, pv) :: (qk, qv) :: rest).map Prod.fst →
      alookup
        (cachePut ((cacheGet (cachePutAll [] ((pk, pv) :: (qk, qv) :: rest)) pk).2) knew vnew)
        pk = some pv ∧
      alookup
        (cachePut ((cacheGet (cachePutAll [] ((pk, pv) :: (qk, qv) :: rest)) pk).2) knew vnew)
        qk = none) :=
  ⟨cachePut_len, cacheGet_hit, cachePut_full_evicts, cache_scenarioA, cache_scenarioB⟩

/-- Witness for C7 at concrete caches: 65 distinct keys evict key 0; with key
0 re-accessed before the 65th insertion, key 0 survives and key 1 is evicted;
a put keeps a full cache at 64 entries; a hit promotes to the front. -/
theorem trieCache_lru_behaviour_witness :
    (cachePut ((List.range 64).map fun i => (i, 0)) 99 7).length ≤ cacheCapacity ∧
    (cacheGet [(5, 1), (6, 2)] 6).2.head? = some (6, 2) ∧
    alookup (cachePutAll [] ((0, 0) :: (List.range 64).map fun i => (i + 1, 0))) 0 = none ∧
    alookup
      (cachePut
        ((cacheGet (cachePutAll [] ((0, 5) :: (1, 6) :: (List.range 62).map fun i => (i + 2, 0))) 0).2)
        100 9) 0 = some 5 ∧
    alookup
      (cachePut
        ((cacheGet (cachePutAll [] ((0, 5) :: (1, 6) :: (List.range 62).map fun i => (i + 2, 0))) 0).2)
        100 9) 1 = none := by
  refine ⟨?_, ?_, ?_, ?_, ?_⟩
  · exact trieCache_lru_behaviour.1 _ 99 7 (by decide)
  · exact (trieCache_lru_behaviour.2.1 _ 6 2 (by decide)).2
  · exact trieCache_lru_behaviour.2.2.2.1 (0, 0) _ (by decide) (by decide)
  · exact (trieCache_lru_behaviour.2.2.2.2 0 5 1 6 _ 100 9 (by decide) (by decide)
      (by decide)).1
  · exact (trieCache_lru_behaviour.2.2.2.2 0 5 1 6 _ 100 9 (by decide) (by decide)
      (by decide)).2

/-! Claim C8: the peeler shrinks monotonically and stops at fixed points. -/

theorem peelFindK_bounds (root : PNode) (toks : List Token) :
    ∀ m k, peelFindK root toks m = some k → 1 ≤ k ∧ k ≤ m := by
  intro m
  induction m with
  | zero => intro k h; simp [peelFindK] at h
  | succ mm ih =>
    intro k h
    simp only [peelFindK] at h
    split at h
    · cases h
      omega
    · have := ih k h
      omega

theorem peelGo_len_le (root : PNode) (maxK : Nat) :
    ∀ s toks, (peelGo root maxK s toks).length ≤ toks.length := by
  intro s
  induction s with
  | zero => intro toks; simp [peelGo]
  | succ ss ih =>
    intro toks
    by_cases h2 : toks.length < 2
    · simp [peelGo, h2]
    · cases hfk : peelFindK root toks (min maxK (toks.length - 1)) with
      | none => simp [peelGo, h2, hfk]
      | some k =>
        simp only [peelGo, if_neg h2, hfk]
        refine le_trans (ih _) ?_
        simp [List.length_take]

theorem peelGo_succ_le (root : PNode) (maxK : Nat) :
    ∀ s toks, (peelGo root maxK (s + 1) toks).length ≤ (peelGo root maxK s toks).length := by
  intro s
  induction s with
  | zero =>
    intro toks
    by_cases h2 : toks.length < 2
    · simp [peelGo, h2]
    · cases hfk : peelFindK root toks (min maxK (toks.length - 1)) with
      | none => simp [peelGo, h2, hfk]
      | some k =>
        simp only [peelGo, if_neg h2, hfk]
        simp [List.length_take]
  | succ ss ih =>
    intro toks
    by_cases h2 : toks.length < 2
    · simp [peelGo, h2]
    · cases hfk : peelFindK root toks (min maxK (toks.length - 1)) with
      | none => simp [peelGo, h2, hfk]
      | some k =>
        simp only [peelGo, if_neg h2, hfk]
        exact ih _

theorem peelGo_antitone (root : PNode) (maxK : Nat) (toks : List Token) :
    ∀ s1 s2, s1 ≤ s2 → (peelGo root maxK s2 toks).length ≤ (peelGo root maxK s1 toks).length := by
  intro s1 s2 h
  induction s2, h using Nat.le_induction with
  | base => exact le_rfl
  | succ s2' hle ih => exact le_trans (peelGo_succ_le root maxK s2' toks) ih

theorem peelGo_fixed (root : PNode) (maxK : Nat) (toks : List Token)
    (hfk : peelFindK root toks (min maxK (toks.length - 1)) = none) :
    ∀ s, peelGo root maxK s toks = toks := by
  intro s
  cases s with
  | zero => rfl
  | succ ss =>
    by_cases h2 : toks.length < 2
    · simp [peelGo, h2]
    · simp [peelGo, h2, hfk]

/-- C8.  For a fixed token sequence and trie, peeling with `steps = 0` is the
identity; for `s1 ≤ s2` the result of peeling with `s2` steps is never longer
than with `s1` steps; and an iteration in which no `k` causes a drop is a
fixed point that stops peeling for every step count. -/
theorem peel_monotone_shrink : ∀ (root : PNode) (maxK : Int) (toks : List Token),
    peelEndTokens toks (some root) 0 maxK = toks ∧
    (∀ s1 s2 : Int, s1 ≤ s2 →
      (peelEndTokens toks (some root) s2 maxK).length ≤
        (peelEndTokens toks (some root) s1 maxK).length) ∧
    (peelFindK root toks (min (if maxK < 1 then 1 else maxK.toNat) (toks.length - 1)) = none →
      ∀ steps : Int, peelEndTokens toks (some root) steps maxK = toks) := by
  intro root maxK toks
  have hpe : ∀ s : Int, peelEndTokens toks (some root) s maxK =
      if toks.length < 2 ∨ (if s < 0 then 0 else s.toNat) = 0 then toks
      else peelGo root (if maxK < 1 then 1 else maxK.toNat)
        (if s < 0 then 0 else s.toNat) toks := fun _ => rfl
  refine ⟨?_, ?_, ?_⟩
  · rw [hpe]
    simp
  · intro s1 s2 h
    have hm : (if s1 < 0 then 0 else s1.toNat) ≤ (if s2 < 0 then 0 else s2.toNat) := by
      split <;> split <;> omega
    rw [hpe s1, hpe s2]
    obtain ⟨n1, hn1⟩ : ∃ n, (if s1 < 0 then 0 else s1.toNat) = n := ⟨_, rfl⟩
    obtain ⟨n2, hn2⟩ : ∃ n, (if s2 < 0 then 0 else s2.toNat) = n := ⟨_, rfl⟩
    rw [hn1, hn2] at hm ⊢
    by_cases hlen : toks.length < 2
    · rw [if_pos (Or.inl hlen), if_pos (Or.inl hlen)]
    · by_cases hz2 : n2 = 0
      · have hz1 : n1 = 0 := by omega
        rw [if_pos (Or.inr hz2), if_pos (Or.inr hz1)]
      · by_cases hz1 : n1 = 0
        · rw [if_neg (not_or.mpr ⟨hlen, hz2⟩), if_pos (Or.inr hz1)]
          exact peelGo_len_le _ _ _ _
        · rw [if_neg (not_or.mpr ⟨hlen, hz2⟩), if_neg (not_or.mpr ⟨hlen, hz1⟩)]
          exact peelGo_antitone _ _ _ _ _ hm
  · intro hfk steps
    rw [hpe steps]
    by_cases hlen : toks.length < 2
    · rw [if_pos (Or.inl hlen)]
    · by_cases hz : (if steps < 0 then 0 else steps.toNat) = 0
      · rw [if_pos (Or.inr hz)]
      · rw [if_neg (not_or.mpr ⟨hlen, hz⟩)]
        exact peelGo_fixed _ _ _ hfk _

/-- Witness for C8 at a concrete trie and token list: `steps = 0` is the
identity, more steps never lengthen the result, and a stable list is left
untouched for any step count. -/
theorem peel_monotone_shrink_witness :
    peelEndTokens [[65], [66]] (some peelP) 0 4 = [[65], [66]] ∧
    (peelEndTokens [[65], [66]] (some peelP) 3 4).length ≤
      (peelEndTokens [[65], [66]] (some peelP) 1 4).length ∧
    peelEndTokens [[65], [66]] (some demoP) 5 0 = [[65], [66]] := by
  refine ⟨(peel_monotone_shrink peelP 4 [[65], [66]]).1, ?_, ?_⟩
  · exact (peel_monotone_shrink peelP 4 [[65], [66]]).2.1 1 3 (by decide)
  · exact (peel_monotone_shrink demoP 0 [[65], [66]]).2.2 (by decide) 5

/-! Claim C4: total, strictly bounds-checked decoding with strict
consumption.  `parseQCK2` returns an `Option` (the C++ function returns a
null pointer instead of throwing), and the theorem characterises its failure
exactly as the spec lists the failure causes; the node parser itself can only
fail on a bounds check, as every `none` in `parseNode`/`parseKids` arises from
`readU32`/`readString` running past the end of the buffer. -/

theorem parseQCK2_failure_characterisation :
    ∀ b : Bytes, parseQCK2 b = none ↔ parseFailsSpec b := by
  intro b
  by_cases h5 : b.length < 5
  · constructor
    · intro _
      rcases Nat.lt_or_ge b.length 4 with h | h
      · exact Or.inl h
      · exact Or.inr (Or.inr (Or.inl (by omega)))
    · intro _
      simp [parseQCK2, h5]
  · push_neg at h5
    obtain ⟨b0, b1, b2, b3, b4, rest, rfl⟩ :
        ∃ b0 b1 b2 b3 b4 rest, b = b0 :: b1 :: b2 :: b3 :: b4 :: rest := by
      rcases b with _ | ⟨x0, _ | ⟨x1, _ | ⟨x2, _ | ⟨x3, _ | ⟨x4, r⟩⟩⟩⟩⟩ <;>
        first
          | exact ⟨_, _, _, _, _, _, rfl⟩
          | (exfalso; simp at h5)
    have hle32 : le32 (b0 :: b1 :: b2 :: b3 :: b4 :: rest)
        = b0 + 256 * b1 + 65536 * b2 + 16777216 * b3 := by
      simp [le32, List.getD]
    have hlenc : (b0 :: b1 :: b2 :: b3 :: b4 :: rest).length = rest.length + 5 := by
      simp
    have hspec : parseFailsSpec (b0 :: b1 :: b2 :: b3 :: b4 :: rest) ↔
        (b0 + 256 * b1 + 65536 * b2 + 16777216 * b3 ≠ qck2Magic ∨ b4 ≠ 0 ∨
          parseNode rest = none ∨ ∃ t r, parseNode rest = some (t, r) ∧ r ≠ []) := by
      simp only [parseFailsSpec, hle32, hlenc]
      constructor
      · rintro (h | ⟨_, h⟩ | h | ⟨_, h⟩ | ⟨_, h⟩ | ⟨_, h⟩)
        · omega
        · exact Or.inl h
        · omega
        · exact Or.inr (Or.inl h)
        · exact Or.inr (Or.inr (Or.inl h))
        · exact Or.inr (Or.inr (Or.inr h))
      · rintro (h | h | h | h)
        · exact Or.inr (Or.inl ⟨by omega, h⟩)
        · exact Or.inr (Or.inr (Or.inr (Or.inl ⟨by omega, h⟩)))
        · exact Or.inr (Or.inr (Or.inr (Or.inr (Or.inl ⟨by omega, h⟩))))
        · exact Or.inr (Or.inr (Or.inr (Or.inr (Or.inr ⟨by omega, h⟩))))
    rw [hspec]
    have hlen' : ¬ (b0 :: b1 :: b2 :: b3 :: b4 :: rest).length < 5 := by omega
    simp only [parseQCK2, if_neg hlen', readU32]
    by_cases hmag : b0 + 256 * b1 + 65536 * b2 + 16777216 * b3 = qck2Magic
    · rw [if_neg (by simp [hmag])]
      by_cases hflag : b4 = 0
      · rw [if_neg (by simp [hflag])]
        cases hp : parseNode rest with
        | none =>
          constructor
          · intro _
            exact Or.inr (Or.inr (Or.inl rfl))
          · intro _
            rfl
        | some pr =>
          obtain ⟨rt, rrest⟩ := pr
          by_cases hrest : rrest = []
          · subst hrest
            constructor
            · intro hc
              simp at hc
            · rintro (h | h | h | ⟨t, r, heq, hne⟩)
              · exact absurd hmag h
              · exact absurd hflag h
              · exact absurd h (by simp)
              · have hre : ([] : Bytes) = r := congrArg Prod.snd (Option.some.inj heq)
                exact absurd hre.symm hne
          · constructor
            · intro _
              exact Or.inr (Or.inr (Or.inr ⟨rt, rrest, rfl, hrest⟩))
            · intro _
              simp [hrest]
      · rw [if_pos (by simpa using hflag)]
        constructor
        · intro _
          exact Or.inr (Or.inl hflag)
        · intro _
          rfl
    · rw [if_pos (by simpa using hmag)]
      constructor
      · intro _
        exact Or.inl hmag
      · intro _
        rfl

/-! Claims C9 and C10: invariants of the skip machinery inside one walk
attempt of `FindAddressExact`. -/

theorem findSkipGo_bounds (params : AddressMatchParams) (node : PNode)
    (toks : List Token) (nn i : Nat) :
    ∀ rem d dd cand, findSkipGo params node toks nn i d rem = some (dd, cand) →
      d ≤ dd ∧ dd + 1 ≤ d + rem ∧ params.skipMinLocalCount < cand.cnt := by
  intro rem
  induction rem with
  | zero => intro d dd cand h; simp [findSkipGo] at h
  | succ rr ih =>
    intro d dd cand h
    simp only [findSkipGo] at h
    split at h
    · split at h
      · injection h with h'
        injection h' with h1 h2
        subst h1
        refine ⟨le_rfl, by omega, by rw [← h2]; assumption⟩
      · have hb := ih (d + 1) dd cand h
        exact ⟨by omega, by omega, hb.2.2⟩
    · have hb := ih (d + 1) dd cand h
      exact ⟨by omega, by omega, hb.2.2⟩

theorem findSkip_bounds (params : AddressMatchParams) (node : PNode)
    (toks : List Token) (nn i maxLookahead d : Nat) (cand : PNode)
    (h : findSkip params node toks nn i maxLookahead = some (d, cand)) :
    1 ≤ d ∧ d ≤ maxLookahead ∧ params.skipMinLocalCount < cand.cnt := by
  have hb := findSkipGo_bounds params node toks nn i maxLookahead 1 d cand h
  exact ⟨hb.1, by omega, hb.2.2⟩

theorem walkGo_skip_budget (params : AddressMatchParams) (toks : List Token) (nn s : Nat) :
    ∀ fuel (node : PNode) (i skipsUsed : Nat) (anchored : Bool),
      skipsUsed ≤ params.skipMaxInWalk →
      ((walkGo params toks nn s fuel node i skipsUsed anchored).2.map Prod.fst).sum + skipsUsed
        ≤ params.skipMaxInWalk ∧
      ∀ ev ∈ (walkGo params toks nn s fuel node i skipsUsed anchored).2,
        params.skipMinLocalCount < ev.2 := by
  intro fuel
  induction fuel with
  | zero =>
    intro node i sk anch hsk
    refine ⟨by simpa [walkGo] using hsk, by simp [walkGo]⟩
  | succ f ih =>
    intro node i sk anch hsk
    simp only [walkGo]
    split
    · -- i < nn: split on the direct-child match
      split
      · -- direct child found: split on the acceptance test
        split
        · exact ⟨by simpa using hsk, by simp⟩
        · exact ih _ (i + 1) sk true hsk
      · -- no direct child: split on the skip budget
        split
        · -- budget available: split on the lookahead result
          split
          · -- a skip (d, cand) was found: split on the acceptance test
            next d cand heq2 =>
            have hb := findSkip_bounds params node toks nn i _ d cand heq2
            rename_i hskip'
            have hdle : d ≤ params.skipMaxInWalk - sk := by
              rcases hb with ⟨h1, h2, _⟩
              revert h2
              split
              · omega
              · intro h2
                exact le_trans h2 (Nat.min_le_left _ _)
            split
            · refine ⟨?_, ?_⟩
              · simp
                omega
              · intro ev hev
                simp at hev
                rw [hev]
                exact hb.2.2
            · have hrec := ih cand (i + d + 1) (sk + d) true (by omega)
              refine ⟨?_, ?_⟩
              · simp only [List.map_cons, List.sum_cons]
                have h1 := hrec.1
                omega
              · intro ev hev
                simp only [List.mem_cons] at hev
                rcases hev with hev | hev
                · rw [hev]
                  exact hb.2.2
                · exact hrec.2 ev hev
          · exact ⟨by simpa using hsk, by simp⟩
        · exact ⟨by simpa using hsk, by simp⟩
    · exact ⟨by simpa using hsk, by simp⟩

/-- C10.  Within one walk attempt, the skip budget counts skipped tokens, not
skip events: the total number of input tokens treated as skipped (the sum of
the per-event skip distances) never exceeds `skip_max_in_walk`, and every
skip lands on a child whose `cnt` strictly exceeds `skip_min_local_count`. -/
theorem walk_skip_budget_counts_tokens : ∀ (params : AddressMatchParams)
    (toks : List Token) (s : Nat) (entry : PNode),
    ((walkAttempt params toks s entry).2.map Prod.fst).sum ≤ params.skipMaxInWalk ∧
    ∀ ev ∈ (walkAttempt params toks s entry).2, params.skipMinLocalCount < ev.2 := by
  intro params toks s entry
  cases hacc : tryAccept params entry s s toks.length with
  | some u => simp [walkAttempt, hacc]
  | none =>
    have hmain := walkGo_skip_budget params toks toks.length s (toks.length + 1) entry s 0
      false (Nat.zero_le _)
    refine ⟨?_, ?_⟩
    · have h1 := hmain.1
      simp only [walkAttempt, hacc]
      omega
    · intro ev hev
      apply hmain.2
      simpa [walkAttempt, hacc] using hev

/-- Witness for C10 at a concrete attempt that actually takes a skip: on the
trie holding "A B", looking up "A X B" with a skip budget of two skips one
token ("X") and lands on the child "A" with count 1. -/
theorem walk_skip_budget_counts_tokens_witness :
    ((walkAttempt demoParamsSkip [[65], [90], [66]] 0 demoP).2.map Prod.fst).sum
      ≤ demoParamsSkip.skipMaxInWalk ∧
    demoParamsSkip.skipMinLocalCount < ((1, 1) : Nat × Nat).2 := by
  have h := walk_skip_budget_counts_tokens demoParamsSkip [[65], [90], [66]] 0 demoP
  exact ⟨h.1, h.2 (1, 1) (by decide)⟩

/-- C9.  In a walk attempt whose start offset `s` is positive (trailing
tokens ignored), no lookahead skip is taken before the first direct child
match: if the first token to be consumed is not a direct child of the entry
node, the attempt ends with no progress beyond the pre-loop acceptance test
on the entry node itself (and in particular takes no skip). -/
theorem walk_anchoring_required (params : AddressMatchParams) (toks : List Token)
    (s : Nat) (entry : PNode) (hs : 0 < s) (hsN : s < toks.length)
    (hmiss : findChild entry (toks.getD (toks.length - 1 - s) []) = none) :
    walkAttempt params toks s entry = (tryAccept params entry s s toks.length, []) := by
  cases hacc : tryAccept params entry s s toks.length with
  | some u => simp [walkAttempt, hacc]
  | none =>
    simp only [walkAttempt, hacc, walkGo]
    split
    · split
      · next child heq =>
        rw [hmiss] at heq
        exact absurd heq (by simp)
      · split
        · split
          · next d cand heq2 =>
            have hb := findSkip_bounds params entry toks toks.length s _ d cand heq2
            rcases hb with ⟨h1, h2, _⟩
            revert h2
            split
            · intro h2
              omega
            · next hcond =>
              intro h2'
              exact absurd ⟨by simp, hs⟩ hcond
          · rfl
        · rfl
    · next hniN => exact absurd hsN hniN

/-- Witness for C9: with one trailing token ignored (`s = 1`) and a first
token "Z" absent below the root, the attempt on the trie holding "A B" makes
no progress at all. -/
theorem walk_anchoring_required_witness :
    walkAttempt demoParamsSkip [[65], [90], [67]] 1 demoP = (none, []) := by
  have h := walk_anchoring_required demoParamsSkip [[65], [90], [67]] 1 demoP
    (by decide) (by decide) rfl
  rw [h]
  decide

/-! Claim C2: which tokens does the start offset `s` ignore?  The code
ignores the `s` rightmost (trailing) tokens: the walk at offset `s` depends
only on the first `N - s` tokens of the input, and is sensitive to the
leading token — refuting the claim that the `s` leading tokens are the ones
skipped. -/

theorem getD_eq_of_take_eq {α : Type} (d : α) (l1 l2 : List α) (m j : Nat)
    (h : l1.take m = l2.take m) (hj : j < m) : l1.getD j d = l2.getD j d := by
  rw [List.getD_eq_getElem?_getD, List.getD_eq_getElem?_getD]
  have h1 : l1[j]? = (l1.take m)[j]? := by
    rw [List.getElem?_take, if_pos hj]
  have h2 : l2[j]? = (l2.take m)[j]? := by
    rw [List.getElem?_take, if_pos hj]
  rw [h1, h2, h]

theorem findSkipGo_congr (params : AddressMatchParams) (node : PNode)
    (t1 t2 : List Token) (nn s i : Nat)
    (hagree : ∀ j, j < nn - s → t1.getD j [] = t2.getD j [])
    (hsi : s ≤ i) (hsn : s < nn) :
    ∀ rem d, 1 ≤ d →
      findSkipGo params node t1 nn i d rem = findSkipGo params node t2 nn i d rem := by
  intro rem
  induction rem with
  | zero => intro d hd; rfl
  | succ rr ih =>
    intro d hd
    have htok := hagree (nn - 1 - (i + d)) (by omega)
    simp only [findSkipGo]
    rw [← htok]
    split
    · split
      · rfl
      · exact ih (d + 1) (by omega)
    · exact ih (d + 1) (by omega)

theorem walkGo_congr (params : AddressMatchParams) (t1 t2 : List Token) (nn s : Nat)
    (hagree : ∀ j, j < nn - s → t1.getD j [] = t2.getD j []) :
    ∀ fuel (node : PNode) (i sk : Nat) (anch : Bool), s ≤ i →
      walkGo params t1 nn s fuel node i sk anch = walkGo params t2 nn s fuel node i sk anch := by
  intro fuel
  induction fuel with
  | zero => intro node i sk anch hsi; rfl
  | succ f ih =>
    intro node i sk anch hsi
    simp only [walkGo]
    by_cases hin : i < nn
    · rw [if_pos hin, if_pos hin]
      have hsn : s < nn := lt_of_le_of_lt hsi hin
      have htok := hagree (nn - 1 - i) (by omega)
      rw [← htok]
      split
      · split
        · rfl
        · rw [ih]
          omega
      · split
        · simp only [findSkip]
          rw [findSkipGo_congr params node t1 t2 nn s i hagree hsi hsn _ 1 le_rfl]
          split
          · split
            · rfl
            · rw [ih]
              omega
          · rfl
        · rfl
    · rw [if_neg hin, if_neg hin]

/-- C2 fails as stated (leading tokens ignored): two token sequences that
agree except in their leading (leftmost) token produce different outcomes for
the walk attempt at start offset `s = 1`, so the offset does not skip leading
tokens. -/
theorem walkAttempt_leading_tokens_cex :
    ([[65], [66], [67]] : List Token).length = ([[90], [66], [67]] : List Token).length ∧
    ([[65], [66], [67]] : List Token).drop 1 = ([[90], [66], [67]] : List Token).drop 1 ∧
    walkAttempt demoParams [[65], [66], [67]] 1 demoP ≠
      walkAttempt demoParams [[90], [66], [67]] 1 demoP := by
  decide

/-- C2 (amended).  `max_trailing_tokens_ignored` bounds the start offsets
`s` (the iteration runs `s = 0, …, min(max_trailing_tokens_ignored, N-1)`),
and the walk attempt at offset `s` ignores the `s` trailing (rightmost)
input tokens: its outcome depends only on the first `N - s` tokens, so any
two equal-length inputs agreeing there give identical attempts. -/
theorem walkAttempt_ignores_trailing : ∀ (params : AddressMatchParams)
    (t1 t2 : List Token) (s : Nat) (entry : PNode),
    t1.length = t2.length →
    t1.take (t1.length - s) = t2.take (t2.length - s) →
    walkAttempt params t1 s entry = walkAttempt params t2 s entry := by
  intro params t1 t2 s entry hlen htake
  have hagree : ∀ j, j < t1.length - s → t1.getD j [] = t2.getD j [] := by
    intro j hj
    rw [← hlen] at htake
    exact getD_eq_of_take_eq [] t1 t2 (t1.length - s) j htake hj
  simp only [walkAttempt, ← hlen]
  cases tryAccept params entry s s t1.length with
  | some u => rfl
  | none =>
    exact walkGo_congr params t1 t2 t1.length s hagree (t1.length + 1) entry s 0 false le_rfl

/-- Witness for the amended C2: changing only the last token (the one the
offset `s = 1` ignores) leaves the attempt unchanged. -/
theorem walkAttempt_ignores_trailing_witness :
    walkAttempt demoParams [[65], [66], [67]] 1 demoP =
      walkAttempt demoParams [[65], [66], [99]] 1 demoP :=
  walkAttempt_ignores_trailing demoParams _ _ 1 demoP (by decide) (by decide)

/-! Claim C3: how the diagnostic classifier maps matching progress to a
status.  The code classifies `INSUFFICIENT` only on full consumption; a walk
with nonzero partial progress ending on a non-terminal yields `NO_PATH` (or
`AMBIGUOUS` when the node's count exceeds one), refuting the claim. -/

/-- C3 fails as stated: on the trie holding "A B", classifying ["Z", "B"]
makes nonzero progress (one token) and ends on a non-terminal node
(`term = 0`), yet the status is `NO_PATH`, not `INSUFFICIENT`. -/
theorem classify_nonterminal_progress_cex :
    (classifyWalkNP demoP [[90], [66]] 0).1 = 1 ∧
    ((classifyWalkNP demoP [[90], [66]] 0).2.map PNode.term) = some 0 ∧
    (classifyNP demoP [[90], [66]] 0).status ≠ CStatus.insufficient ∧
    (classifyNP demoP [[90], [66]] 0).status = CStatus.noPath := by
  decide

/-- C3 (amended).  For a non-empty token list, when no walk accepts the
outcome is classified from the walk's progress as the code does: zero
progress yields `NoPath`; full consumption ending on a non-terminal node
yields `Insufficient`; full consumption ending on a terminal that does not
resolve to a unique nonzero identifier yields `Ambiguous`; nonzero partial
progress yields `Ambiguous` when the last reached node has `count > 1` and
`NoPath` otherwise. -/
theorem classify_progress_statuses : ∀ (root : PNode) (toks : List Token) (maxSkips : Nat),
    toks.length ≠ 0 →
    ((classifyWalkNP root toks maxSkips).1 = 0 →
      (classifyNP root toks maxSkips).status = CStatus.noPath) ∧
    (∀ l, (classifyWalkNP root toks maxSkips).1 = toks.length →
      (classifyWalkNP root toks maxSkips).2 = some l → l.term = 0 →
      (classifyNP root toks maxSkips).status = CStatus.insufficient) ∧
    (∀ l, (classifyWalkNP root toks maxSkips).1 = toks.length →
      (classifyWalkNP root toks maxSkips).2 = some l → l.term ≠ 0 →
      ¬(l.term = 1 ∧ l.uprn ≠ 0) →
      (classifyNP root toks maxSkips).status = CStatus.ambiguous) ∧
    (∀ l, (classifyWalkNP root toks maxSkips).1 ≠ toks.length →
      (classifyWalkNP root toks maxSkips).1 ≠ 0 →
      (classifyWalkNP root toks maxSkips).2 = some l → 1 < l.cnt →
      (classifyNP root toks maxSkips).status = CStatus.ambiguous) ∧
    (∀ l, (classifyWalkNP root toks maxSkips).1 ≠ toks.length →
      (classifyWalkNP root toks maxSkips).1 ≠ 0 →
      (classifyWalkNP root toks maxSkips).2 = some l → l.cnt ≤ 1 →
      (classifyNP root toks maxSkips).status = CStatus.noPath) := by
  intro root toks maxSkips hn
  refine ⟨?_, ?_, ?_, ?_, ?_⟩
  · intro h0
    have hne : (classifyWalkNP root toks maxSkips).1 ≠ toks.length := by omega
    simp only [classifyNP, if_neg hn, if_neg hne, if_pos h0]
  · intro l hm hw hterm
    have hc1 : ¬(l.term = 1 ∧ l.uprn ≠ 0) := by
      rintro ⟨h1, _⟩
      omega
    simp only [classifyNP, if_neg hn, if_pos hm, hw, if_neg hc1, if_pos hterm]
  · intro l hm hw hterm hres
    simp only [classifyNP, if_neg hn, if_pos hm, hw, if_neg hres, if_neg hterm]
  · intro l hm h0 hw hcnt
    simp only [classifyNP, if_neg hn, if_neg hm, if_neg h0, hw, if_pos hcnt]
  · intro l hm h0 hw hcnt
    have hc : ¬ (1 < l.cnt) := by omega
    simp only [classifyNP, if_neg hn, if_neg hm, if_neg h0, hw, if_neg hc]

/-- Witness for the amended C3 at concrete walks: zero progress, full
consumption onto a non-terminal, full consumption onto an ambiguous terminal,
partial progress over a count-2 node, and partial progress over a count-1
node, in that order. -/
theorem classify_progress_statuses_witness :
    (classifyNP demoP [[90]] 0).status = CStatus.noPath ∧
    (classifyNP demoP [[66]] 0).status = CStatus.insufficient ∧
    (classifyNP ambP [[66]] 0).status = CStatus.ambiguous ∧
    (classifyNP ambP [[90], [66]] 0).status = CStatus.ambiguous ∧
    (classifyNP demoP [[90], [66]] 0).status = CStatus.noPath := by
  refine ⟨?_, ?_, ?_, ?_, ?_⟩
  · exact (classify_progress_statuses demoP [[90]] 0 (by decide)).1 (by decide)
  · exact (classify_progress_statuses demoP [[66]] 0 (by decide)).2.1
      (.mk 1 0 0 [([65], .mk 1 1 9 [])]) (by decide) rfl (by decide)
  · exact (classify_progress_statuses ambP [[66]] 0 (by decide)).2.2.1
      (.mk 2 2 0 []) (by decide) rfl (by decide) (by decide)
  · exact (classify_progress_statuses ambP [[90], [66]] 0 (by decide)).2.2.2.1
      (.mk 2 2 0 []) (by decide) (by decide) rfl (by decide)
  · exact (classify_progress_statuses demoP [[90], [66]] 0 (by decide)).2.2.2.2
      (.mk 1 0 0 [([65], .mk 1 1 9 [])]) (by decide) (by decide) rfl (by decide)

/-! Claims C6 and C1: the merge algebra over per-path observations, and the
serialisation round trip.  Shared machinery: well-formedness of builder
tries and the behaviour of `mergeKidsInto` under association lookup. -/

theorem wf_empty : NodesWF emptyT :=
  NodesWF.mk 0 0 0 [] (by norm_num) (List.Pairwise.nil) (by intro p hp; simp at hp)

theorem alookup_mem {α : Type} : ∀ (l : List (Token × α)) (k : Token) (v : α),
    alookup l k = some v → (k, v) ∈ l := by
  intro l
  induction l with
  | nil => intro k v h; simp [alookup] at h
  | cons p rest ih =>
    obtain ⟨k', v'⟩ := p
    intro k v h
    by_cases hk : k' = k
    · subst hk
      simp only [alookup, if_pos rfl] at h
      injection h with h'
      rw [h']
      exact List.mem_cons_self _ _
    · simp only [alookup, if_neg hk] at h
      exact List.mem_cons_of_mem _ (ih k v h)

theorem pairwise_fst_nodup {α : Type} (l : List (Token × α))
    (h : l.Pairwise fun p q => ltTok p.1 q.1) : (l.map Prod.fst).Nodup := by
  rw [List.Nodup, List.pairwise_map]
  refine h.imp ?_
  intro a b hab heq
  rw [heq] at hab
  rw [ltTok_irrefl b.1] at hab
  exact Bool.false_ne_true hab

theorem alookup_mergeKidsInto_not_mem : ∀ (sk dk : List (Token × TrieNode)) (tok : Token),
    tok ∉ sk.map Prod.fst → alookup (mergeKidsInto dk sk) tok = alookup dk tok := by
  intro sk
  induction sk with
  | nil => intro dk tok _; rfl
  | cons p rest ih =>
    obtain ⟨k, c⟩ := p
    intro dk tok h
    simp only [List.map_cons, List.mem_cons] at h
    push_neg at h
    simp only [mergeKidsInto]
    rw [ih _ tok h.2, alookup_sortedSetEntry_ne _ _ _ _ h.1]

theorem alookup_mergeKidsInto : ∀ (sk dk : List (Token × TrieNode)) (tok : Token),
    (sk.map Prod.fst).Nodup →
    alookup (mergeKidsInto dk sk) tok =
      match alookup sk tok with
      | none => alookup dk tok
      | some c => some (mergeTrie ((alookup dk tok).getD emptyT) c) := by
  intro sk
  induction sk with
  | nil => intro dk tok _; rfl
  | cons p rest ih =>
    obtain ⟨k, c⟩ := p
    intro dk tok hnd
    simp only [List.map_cons, List.nodup_cons] at hnd
    simp only [mergeKidsInto]
    by_cases he : k = tok
    · subst he
      rw [alookup_mergeKidsInto_not_mem rest _ k hnd.1, alookup_sortedSetEntry_self]
      simp [alookup]
    · have hne' : tok ≠ k := fun h => he h.symm
      rw [ih _ tok hnd.2, alookup_sortedSetEntry_ne _ _ _ _ hne']
      simp [alookup, he]

theorem mergeKidsInto_wf : ∀ (sk dk : List (Token × TrieNode)),
    dk.Pairwise (fun p q => ltTok p.1 q.1) → (∀ p ∈ dk, NodesWF p.2) →
    (∀ p ∈ sk, ∀ d, NodesWF d → NodesWF (mergeTrie d p.2)) →
    (mergeKidsInto dk sk).Pairwise (fun p q => ltTok p.1 q.1) ∧
      ∀ p ∈ mergeKidsInto dk sk, NodesWF p.2 := by
  intro sk
  induction sk with
  | nil => intro dk hp hv _; exact ⟨hp, hv⟩
  | cons q rest ih =>
    obtain ⟨k, c⟩ := q
    intro dk hp hv hm
    simp only [mergeKidsInto]
    apply ih
    · exact sortedSetEntry_pairwise _ _ _ hp
    · intro p hpmem
      rcases mem_sortedSetEntry _ _ _ _ hpmem with h | h
      · exact hv p h
      · rw [h]
        apply hm (k, c) (List.mem_cons_self _ _)
        cases hl : alookup dk k with
        | none => exact wf_empty
        | some d => exact hv (k, d) (alookup_mem _ _ _ hl)
    · intro p hpmem d hd
      exact hm p (List.mem_cons_of_mem _ hpmem) d hd

theorem mergeTrie_wf : ∀ b, NodesWF b → ∀ a, NodesWF a → NodesWF (mergeTrie a b) := by
  intro b hb
  induction hb with
  | mk bc btm bu bk hbb hpb hmb ihb =>
    intro a ha
    obtain ⟨ac, atm, au, ak⟩ := a
    have hpa : ak.Pairwise (fun p q => ltTok p.1 q.1) := by cases ha; assumption
    have hma : ∀ p ∈ ak, NodesWF p.2 := by cases ha; assumption
    simp only [mergeTrie]
    have hres := mergeKidsInto_wf bk ak hpa hma (fun p hp d hd => ihb p hp d hd)
    exact NodesWF.mk _ _ _ _ (Nat.mod_lt _ (by norm_num)) hres.1 hres.2

theorem insGo_wf : ∀ (revToks : List Token) (uprnVal : Nat) (t : TrieNode),
    NodesWF t → NodesWF (insGo uprnVal t revToks) := by
  intro revToks
  induction revToks with
  | nil =>
    intro u t ht
    obtain ⟨c, tm, uu, kids⟩ := t
    have hp : kids.Pairwise (fun p q => ltTok p.1 q.1) := by cases ht; assumption
    have hm : ∀ p ∈ kids, NodesWF p.2 := by cases ht; assumption
    exact NodesWF.mk _ _ _ _ (Nat.mod_lt _ (by norm_num)) hp hm
  | cons tok rest ih =>
    intro u t ht
    obtain ⟨c, tm, uu, kids⟩ := t
    have hb : tm < 4294967296 := by cases ht; assumption
    have hp : kids.Pairwise (fun p q => ltTok p.1 q.1) := by cases ht; assumption
    have hm : ∀ p ∈ kids, NodesWF p.2 := by cases ht; assumption
    simp only [insGo]
    refine NodesWF.mk _ _ _ _ hb (sortedSetEntry_pairwise _ _ _ hp) ?_
    intro p hpmem
    rcases mem_sortedSetEntry _ _ _ _ hpmem with h | h
    · exact hm p h
    · rw [h]
      apply ih
      cases hl : alookup kids tok with
      | none => exact wf_empty
      | some d => exact hm (tok, d) (alookup_mem _ _ _ hl)

theorem built_wf : ∀ t, Built t → NodesWF t := by
  intro t hb
  induction hb with
  | empty => exact wf_empty
  | insert t toks uprnVal _ _ ih => exact insGo_wf _ _ _ ih
  | merge a b _ _ iha ihb => exact mergeTrie_wf b ihb a iha

theorem combineCT_comm : ∀ x y, combineCT x y = combineCT y x := by
  intro x y
  cases x with
  | none => cases y <;> rfl
  | some px =>
    cases y with
    | none => rfl
    | some py => simp [combineCT, Nat.add_comm]

theorem combineCT_assoc : ∀ x y z, combineCT (combineCT x y) z = combineCT x (combineCT y z) := by
  intro x y z
  cases x <;> cases y <;> cases z <;> simp [combineCT, Prod.ext_iff, Nat.add_assoc]

theorem combineCT_none_left : ∀ y, combineCT none y = y := by
  intro y
  cases y <;> rfl

theorem combineCT_none_right : ∀ x, combineCT x none = x := by
  intro x
  cases x <;> rfl

theorem obsCT_empty_neutral : ∀ (t : TrieNode), NodesWF t → ∀ (p : List Token),
    combineCT (obsCT emptyT p) (obsCT t p) = obsCT t p := by
  intro t ht p
  cases p with
  | nil =>
    obtain ⟨c, tm, u, kids⟩ := t
    have hb : tm < 4294967296 := by cases ht; assumption
    simp [obsCT, emptyT, combineCT, Nat.mod_eq_of_lt hb]
  | cons tok rest =>
    have h : obsCT emptyT (tok :: rest) = none := by
      simp [obsCT, emptyT, alookup]
    rw [h, combineCT_none_left]

theorem obsCT_merge : ∀ (p : List Token) (a b : TrieNode), NodesWF a → NodesWF b →
    obsCT (mergeTrie a b) p = combineCT (obsCT a p) (obsCT b p) := by
  intro p
  induction p with
  | nil =>
    intro a b _ _
    obtain ⟨ac, atm, au, ak⟩ := a
    obtain ⟨bc, btm, bu, bk⟩ := b
    simp [obsCT, mergeTrie, combineCT]
  | cons tok rest ih =>
    intro a b hwa hwb
    obtain ⟨ac, atm, au, ak⟩ := a
    obtain ⟨bc, btm, bu, bk⟩ := b
    have hma : ∀ q ∈ ak, NodesWF q.2 := by cases hwa; assumption
    have hpb : bk.Pairwise (fun q r => ltTok q.1 r.1) := by cases hwb; assumption
    have hmb : ∀ q ∈ bk, NodesWF q.2 := by cases hwb; assumption
    have hnd : (bk.map Prod.fst).Nodup := pairwise_fst_nodup _ hpb
    simp only [obsCT, mergeTrie]
    rw [alookup_mergeKidsInto bk ak tok hnd]
    cases hb : alookup bk tok with
    | none =>
      cases ha : alookup ak tok with
      | none => rfl
      | some ca => rw [combineCT_none_right]
    | some cb =>
      cases ha : alookup ak tok with
      | some ca =>
        exact ih ca cb (hma _ (alookup_mem _ _ _ ha)) (hmb _ (alookup_mem _ _ _ hb))
      | none =>
        have hrec := ih emptyT cb wf_empty (hmb _ (alookup_mem _ _ _ hb))
        rw [combineCT_none_left]
        calc obsCT (mergeTrie (Option.getD none emptyT) cb) rest
            = combineCT (obsCT emptyT rest) (obsCT cb rest) := hrec
          _ = obsCT cb rest := obsCT_empty_neutral cb (hmb _ (alookup_mem _ _ _ hb)) rest

/-- C6.  `MergeTrie` is commutative and associative over `count` and
`terminal_count`: for well-formed tries (as all builder tries are), merging
in either order or grouping produces the same `(cnt, term)` observation at
every token path. -/
theorem mergeTrie_comm_assoc_counts : ∀ (a b c : TrieNode) (p : List Token),
    NodesWF a → NodesWF b → NodesWF c →
    obsCT (mergeTrie a b) p = obsCT (mergeTrie b a) p ∧
    obsCT (mergeTrie (mergeTrie a b) c) p = obsCT (mergeTrie a (mergeTrie b c)) p := by
  intro a b c p hwa hwb hwc
  constructor
  · rw [obsCT_merge p a b hwa hwb, obsCT_merge p b a hwb hwa, combineCT_comm]
  · rw [obsCT_merge p (mergeTrie a b) c (mergeTrie_wf b hwb a hwa) hwc,
      obsCT_merge p a b hwa hwb,
      obsCT_merge p a (mergeTrie b c) hwa (mergeTrie_wf c hwc b hwb),
      obsCT_merge p b c hwb hwc, combineCT_assoc]

/-- Witness for C6 at concrete built tries holding "A", "B" and "A B". -/
theorem mergeTrie_comm_assoc_counts_witness :
    obsCT (mergeTrie (buildTrie [([[65]], 3)]) (buildTrie [([[66]], 4)])) [[65]] =
      obsCT (mergeTrie (buildTrie [([[66]], 4)]) (buildTrie [([[65]], 3)])) [[65]] ∧
    obsCT (mergeTrie (mergeTrie (buildTrie [([[65]], 3)]) (buildTrie [([[66]], 4)]))
        (buildTrie [([[65], [66]], 5)])) [[66]] =
      obsCT (mergeTrie (buildTrie [([[65]], 3)])
        (mergeTrie (buildTrie [([[66]], 4)]) (buildTrie [([[65], [66]], 5)]))) [[66]] := by
  have h1 := mergeTrie_comm_assoc_counts (buildTrie [([[65]], 3)]) (buildTrie [([[66]], 4)])
    (buildTrie [([[65], [66]], 5)]) [[65]]
    (built_wf _ (Built.insert _ _ _ Built.empty (by decide)))
    (built_wf _ (Built.insert _ _ _ Built.empty (by decide)))
    (built_wf _ (Built.insert _ _ _ Built.empty (by decide)))
  have h2 := mergeTrie_comm_assoc_counts (buildTrie [([[65]], 3)]) (buildTrie [([[66]], 4)])
    (buildTrie [([[65], [66]], 5)]) [[66]]
    (built_wf _ (Built.insert _ _ _ Built.empty (by decide)))
    (built_wf _ (Built.insert _ _ _ Built.empty (by decide)))
    (built_wf _ (Built.insert _ _ _ Built.empty (by decide)))
  exact ⟨h1.1, h2.2⟩

/-! Claim C1: the serialisation round trip.  Reading back what `w32` wrote
recovers the value modulo 2^32 (the `uint32_t` narrowing); a node serialised
by `serializeNode` parses back to its `toP` image. -/

theorem w32_digits (v : Nat) :
    v % 256 + 256 * (v / 256 % 256) + 65536 * (v / 65536 % 256)
      + 16777216 * (v / 16777216 % 256) = v % 4294967296 := by
  have h1 : v % 4294967296 = v % 256 + 256 * (v / 256 % 16777216) := by
    rw [show (4294967296 : Nat) = 256 * 16777216 by norm_num, Nat.mod_mul]
  have h2 : v / 256 % 16777216 = v / 256 % 256 + 256 * (v / 256 / 256 % 65536) := by
    rw [show (16777216 : Nat) = 256 * 65536 by norm_num, Nat.mod_mul]
  have h3 : v / 256 / 256 % 65536 = v / 256 / 256 % 256
      + 256 * (v / 256 / 256 / 256 % 256) := by
    rw [show (65536 : Nat) = 256 * 256 by norm_num, Nat.mod_mul]
  have hd1 : v / 256 / 256 = v / 65536 := by
    rw [Nat.div_div_eq_div_mul]
  have hd2 : v / 65536 / 256 = v / 16777216 := by
    rw [Nat.div_div_eq_div_mul]
  rw [h1, h2, h3, hd1, hd2]
  ring

theorem readU32_w32 (v : Nat) (r : Bytes) :
    readU32 (w32 v ++ r) = some (v % 4294967296, r) := by
  show readU32 (v % 256 :: (v / 256 % 256) :: (v / 65536 % 256) :: (v / 16777216 % 256) :: r)
      = some (v % 4294967296, r)
  simp only [readU32]
  rw [← w32_digits v]

theorem readString_wstr (s : Token) (r : Bytes) (h : s.length < 4294967296) :
    readString (wstr s ++ r) = some (s, r) := by
  simp only [wstr, List.append_assoc, readString, readU32_w32, Nat.mod_eq_of_lt h, readBytes]
  rw [if_pos (by simp)]
  rw [List.take_left, List.drop_left]

theorem alookup_toPKids : ∀ (kids : List (Token × TrieNode)) (tok : Token),
    alookup (toPKids kids) tok = (alookup kids tok).map toP := by
  intro kids
  induction kids with
  | nil => intro tok; rfl
  | cons p rest ih =>
    obtain ⟨k, c⟩ := p
    intro tok
    by_cases h : k = tok
    · simp [toPKids, alookup, h]
    · simp [toPKids, alookup, h, ih]

theorem pObs_toP : ∀ t, BoundedT t → ∀ path, pObs (toP t) path = obs t path := by
  intro t hb
  induction hb with
  | mk c tm u kids hc ht hu hk htok hbm ih =>
    intro path
    cases path with
    | nil =>
      simp only [toP, pObs, obs]
      rw [Nat.mod_eq_of_lt hc, Nat.mod_eq_of_lt ht, Nat.mod_eq_of_lt hu]
    | cons tok rest =>
      simp only [toP, pObs, obs]
      rw [alookup_toPKids]
      cases hl : alookup kids tok with
      | none => rfl
      | some child =>
        simp only [Option.map_some]
        exact ih (tok, child) (alookup_mem _ _ _ hl) rest

theorem parseKids_ser : ∀ (ks : List (Token × TrieNode)) (rest : Bytes),
    (∀ p ∈ ks, p.1.length < 4294967296) →
    (∀ p ∈ ks, ∀ r, parseNode (serializeNode p.2 ++ r) = some (toP p.2, r)) →
    parseKids ks.length (serializeKids ks ++ rest) = some (toPKids ks, rest) := by
  intro ks
  induction ks with
  | nil => intro rest _ _; simp [parseKids, serializeKids, toPKids]
  | cons p ks' ih =>
    obtain ⟨k, c⟩ := p
    intro rest htok hpn
    have hk : k.length < 4294967296 := htok (k, c) (List.mem_cons_self _ _)
    have h1 := readString_wstr k (serializeNode c ++ (serializeKids ks' ++ rest)) hk
    have h2 := hpn (k, c) (List.mem_cons_self _ _) (serializeKids ks' ++ rest)
    have h3 := ih rest (fun p hp => htok p (List.mem_cons_of_mem _ hp))
      (fun p hp => hpn p (List.mem_cons_of_mem _ hp))
    have hg1 : (serializeNode c ++ (serializeKids ks' ++ rest)).length
        < (wstr k ++ (serializeNode c ++ (serializeKids ks' ++ rest))).length := by
      simp [wstr, w32]
      omega
    have hg2 : (serializeKids ks' ++ rest).length
        < (wstr k ++ (serializeNode c ++ (serializeKids ks' ++ rest))).length := by
      have hs : 0 < (serializeNode c).length := by
        obtain ⟨cc, ct, cu, ck⟩ := c
        simp [serializeNode, w32]
      simp [wstr, w32]
      omega
    simp only [serializeKids, List.length_cons, List.append_assoc, parseKids, h1]
    rw [dif_pos hg1]
    simp only [h2]
    rw [dif_pos hg2]
    simp only [h3, toPKids]

theorem parse_ser : ∀ t, BoundedT t → ∀ rest,
    parseNode (serializeNode t ++ rest) = some (toP t, rest) := by
  intro t hb
  induction hb with
  | mk c tm u kids hc ht hu hk htok hbm ih =>
    intro rest
    have e1 := readU32_w32 c (w32 tm ++ (w32 (u % 4294967296)
      ++ (w32 (u / 4294967296 % 4294967296) ++ (w32 kids.length ++ (serializeKids kids ++ rest)))))
    have e2 := readU32_w32 tm (w32 (u % 4294967296)
      ++ (w32 (u / 4294967296 % 4294967296) ++ (w32 kids.length ++ (serializeKids kids ++ rest))))
    have e3 := readU32_w32 (u % 4294967296)
      (w32 (u / 4294967296 % 4294967296) ++ (w32 kids.length ++ (serializeKids kids ++ rest)))
    have e4 := readU32_w32 (u / 4294967296 % 4294967296)
      (w32 kids.length ++ (serializeKids kids ++ rest))
    have e5 := readU32_w32 kids.length (serializeKids kids ++ rest)
    have hg : (serializeKids kids ++ rest).length
        < (w32 c ++ (w32 tm ++ (w32 (u % 4294967296)
          ++ (w32 (u / 4294967296 % 4294967296)
            ++ (w32 kids.length ++ (serializeKids kids ++ rest)))))).length := by
      simp [w32]
      omega
    have hkids := parseKids_ser kids rest htok (fun p hp r => ih p hp r)
    simp only [serializeNode, w64, List.append_assoc]
    simp only [parseNode, e1, e2, e3, e4, e5]
    rw [dif_pos hg]
    rw [Nat.mod_eq_of_lt hk]
    simp only [hkids]
    simp only [toP, Option.some.injEq, Prod.mk.injEq, and_true]
    have huu : u % 4294967296 % 4294967296
        + 4294967296 * (u / 4294967296 % 4294967296 % 4294967296)
        = u % 18446744073709551616 := by
      rw [Nat.mod_mod_of_dvd _ (by norm_num), Nat.mod_mod_of_dvd _ (by norm_num)]
      rw [show (18446744073709551616 : Nat) = 4294967296 * 4294967296 by norm_num, Nat.mod_mul]
    rw [huu]

theorem parseQCK2_encode (t : TrieNode) (hb : BoundedT t) :
    parseQCK2 (encodeTrie t) = some (toP t) := by
  have hps := parse_ser t hb []
  rw [List.append_nil] at hps
  have hlen : ¬ (encodeTrie t).length < 5 := by
    obtain ⟨c, tm, u, kids⟩ := t
    simp [encodeTrie, serializeNode, w32, w64]
  have e1 : readU32 (encodeTrie t) = some (qck2Magic, 0 :: serializeNode t) := by
    rw [encodeTrie, List.append_assoc]
    have h := readU32_w32 qck2Magic ([0] ++ serializeNode t)
    rw [Nat.mod_eq_of_lt (by norm_num [qck2Magic])] at h
    exact h
  simp [parseQCK2, hlen, e1, hps]

theorem built_insert_fold : ∀ (ps : List (List Token × Nat)) (t : TrieNode), Built t →
    (∀ p ∈ ps, p.1 ≠ []) →
    Built (ps.foldl (fun t p => insertReversed t p.1 p.2) t) := by
  intro ps
  induction ps with
  | nil => intro t ht _; exact ht
  | cons p rest ih =>
    intro t ht hne
    simp only [List.foldl_cons]
    exact ih _ (Built.insert _ _ _ ht (hne p (List.mem_cons_self _ _)))
      (fun q hq => hne q (List.mem_cons_of_mem _ hq))

/-- Inserting the single-token sequence `[65]` `n + 1` times from the empty
state: the root passes `n + 1` sequences, the one child terminates all of
them — its `uint32_t` terminal count wrapping modulo 2^32 — and the
identifier survives only while the stored terminal count is 1. -/
theorem bigBuild : ∀ n : Nat, buildTrie (List.replicate (n + 1) ([[65]], 1))
    = .mk (n + 1) 0 0 [([65], .mk (n + 1) ((n + 1) % 4294967296)
        (if (n + 1) % 4294967296 = 1 then 1 else 0) [])] := by
  intro n
  induction n with
  | zero => rfl
  | succ m ih =>
    have h : buildTrie (List.replicate (m + 1 + 1) ([[65]], 1))
        = insertReversed (buildTrie (List.replicate (m + 1) ([[65]], 1))) [[65]] 1 := by
      rw [List.replicate_succ']
      simp [buildTrie, List.foldl_append]
    rw [h, ih]
    simp only [insertReversed, insGo, sortedSetEntry, alookup, List.reverse_cons,
      List.reverse_nil, List.nil_append, Option.getD_some, if_pos]
    simp [Nat.mod_add_mod]

/-- C5 fails as stated: `terminal_count` is a `uint32_t`, so `MergeTrie`'s
`dst.term += src.term` wraps modulo 2^32.  Each operand below is a builder
trie whose "A" node carries terminal count 2^31 (built by 2^31 insertions of
the one-token sequence); merging the two tries yields terminal count 0 at
that node — not the operands' sum 2^32 — while the counts sum to 2^32. -/
theorem mergeTrie_term_wrap_cex :
    Built (buildTrie (List.replicate 2147483648 ([[65]], 1))) ∧
    obs (buildTrie (List.replicate 2147483648 ([[65]], 1))) [[65]]
      = some (2147483648, 2147483648, 0) ∧
    obs (mergeTrie (buildTrie (List.replicate 2147483648 ([[65]], 1)))
        (buildTrie (List.replicate 2147483648 ([[65]], 1)))) [[65]]
      = some (4294967296, 0, 0) := by
  have ht : buildTrie (List.replicate 2147483648 ([[65]], 1))
      = .mk 2147483648 0 0 [([65], .mk 2147483648 2147483648 0 [])] := by
    have h := bigBuild 2147483647
    norm_num at h
    exact h
  refine ⟨?_, ?_, ?_⟩
  · exact built_insert_fold _ emptyT Built.empty
      (fun p hp => by rw [List.eq_of_mem_replicate hp]; simp)
  · rw [ht]; decide
  · rw [ht]; decide

/-- `BoundedT` holds of the all-zero two-node trie used to compare blobs. -/
theorem boundedT_zeroPair : BoundedT (.mk 0 0 0 [([65], .mk 0 0 0 [])]) := by
  refine BoundedT.mk 0 0 0 _ (by norm_num) (by norm_num) (by norm_num) (by norm_num) ?_ ?_
  · intro p hp
    simp only [List.mem_singleton] at hp
    subst hp
    norm_num
  · intro p hp
    simp only [List.mem_singleton] at hp
    subst hp
    exact BoundedT.mk 0 0 0 [] (by norm_num) (by norm_num) (by norm_num) (by norm_num)
      (by intro q hq; simp at hq) (by intro q hq; simp at hq)

/-- C1 counterexample: the claim fails without width bounds.  The trie built
by inserting the sequence `[[65]]` with identifier 1, 2^32 times, has root
count 2^32; the serializer narrows every count to `uint32_t`, so its QCK2
blob parses successfully to a trie whose root count is 0 — no parsed trie
matches the original at every path. -/
theorem qck2_roundtrip_cex :
    Built (buildTrie (List.replicate 4294967296 ([[65]], 1))) ∧
    ¬ ∃ p, parseQCK2 (encodeTrie (buildTrie (List.replicate 4294967296 ([[65]], 1)))) = some p
        ∧ ∀ path, pObs p path = obs (buildTrie (List.replicate 4294967296 ([[65]], 1))) path := by
  have ht : buildTrie (List.replicate 4294967296 ([[65]], 1))
      = .mk 4294967296 0 0 [([65], .mk 4294967296 0 0 [])] := by
    have h := bigBuild 4294967295
    norm_num at h
    exact h
  constructor
  · exact built_insert_fold _ emptyT Built.empty
      (fun p hp => by rw [List.eq_of_mem_replicate hp]; simp)
  · rintro ⟨p, hp, hobs⟩
    rw [ht] at hp hobs
    have hser : encodeTrie (.mk 4294967296 0 0 [([65], .mk 4294967296 0 0 [])])
        = encodeTrie (.mk 0 0 0 [([65], .mk 0 0 0 [])]) := by decide
    rw [hser, parseQCK2_encode _ boundedT_zeroPair] at hp
    have hpp : p = toP (.mk 0 0 0 [([65], .mk 0 0 0 [])]) := (Option.some.inj hp).symm
    subst hpp
    have h0 := hobs []
    simp [pObs, obs, toP, Prod.ext_iff] at h0

/-- C1 (amended): for every trie built by `InsertReversed`/`MergeTrie` whose
fields fit the widths the serializer writes (counts, child counts and token
lengths below 2^32, identifiers below 2^64), parsing the QCK2 blob written
by `StateFinalize` succeeds and the result carries identical
`(cnt, term, uprn)` at every token path as the original. -/
theorem qck2_roundtrip (t : TrieNode) (hbuilt : Built t) (hbound : BoundedT t) :
    ∃ p, parseQCK2 (encodeTrie t) = some p ∧ ∀ path, pObs p path = obs t path :=
  ⟨toP t, parseQCK2_encode t hbound, pObs_toP t hbound⟩

/-- C1 witness: the round trip at the one-entry trie for the sequence
`[[65]]` with identifier 9. -/
theorem qck2_roundtrip_witness :
    ∃ p, parseQCK2 (encodeTrie (insertReversed emptyT [[65]] 9)) = some p
      ∧ ∀ path, pObs p path = obs (insertReversed emptyT [[65]] 9) path := by
  refine qck2_roundtrip _ (Built.insert _ _ _ Built.empty (by decide)) ?_
  show BoundedT (.mk 1 0 0 [([65], .mk 1 1 9 [])])
  refine BoundedT.mk 1 0 0 _ (by norm_num) (by norm_num) (by norm_num) (by norm_num) ?_ ?_
  · intro q hq
    simp only [List.mem_singleton] at hq
    subst hq
    norm_num
  · intro q hq
    simp only [List.mem_singleton] at hq
    subst hq
    exact BoundedT.mk 1 1 9 [] (by norm_num) (by norm_num) (by norm_num) (by norm_num)
      (by intro q hq; simp at hq) (by intro q hq; simp at hq)

end SplinkUdfs
